import Mathlib

/-!
Verification of the traffic simulation in Server/trafficServer/traffic_base
(agent.py, model.py).  The Python classes are shallowly embedded: grids and
agent records become Lean structures, the A* router and the per-agent step
methods become executable Lean functions, and the properties of the
specification are proved as theorems about those functions.
-/

namespace Traffic

/-- Cardinal direction of travel / road flow (the strings in agent.py). -/
inductive Dir : Type
  | Up
  | Down
  | Left
  | Right
deriving DecidableEq, Repr

/-- A grid coordinate (x, y), as used by cell.coordinate in mesa. -/
abbrev Pos : Type := Int × Int

/-- The opposite cardinal direction. -/
def reverseDir : Dir → Dir
  | Dir.Up => Dir.Down
  | Dir.Down => Dir.Up
  | Dir.Left => Dir.Right
  | Dir.Right => Dir.Left

/-- Coordinate obtained by moving one cell in a direction
(Car.get_next_cell_by_direction offsets). -/
def applyDir (p : Pos) : Dir → Pos
  | Dir.Up => (p.1, p.2 + 1)
  | Dir.Down => (p.1, p.2 - 1)
  | Dir.Left => (p.1 - 1, p.2)
  | Dir.Right => (p.1 + 1, p.2)

/-- Car.manhattan_distance. -/
def manhattan (p q : Pos) : Nat :=
  (p.1 - q.1).natAbs + (p.2 - q.2).natAbs

/-- The shared direction table of agent.py: the allowed_directions and
compatible_roads dictionaries are literally identical, mapping a road
direction to the three non-reversing directions (forward plus the two
perpendicular ones). -/
def allowedFrom : Dir → List Dir
  | Dir.Up => [Dir.Up, Dir.Left, Dir.Right]
  | Dir.Down => [Dir.Down, Dir.Left, Dir.Right]
  | Dir.Left => [Dir.Left, Dir.Up, Dir.Down]
  | Dir.Right => [Dir.Right, Dir.Up, Dir.Down]

/-- Static per-tick snapshot of the grid contents that the A* router reads:
road directions, obstacles, destination markers, one optional traffic light
per cell (state, timeToChange; state = false means red), and the
reached_destination flags of the cars sitting in each cell. -/
structure SGrid : Type where
  width : Int
  height : Int
  road : Pos → Option Dir
  obstacle : Pos → Bool
  destMark : Pos → Bool
  light : Pos → Option (Bool × Nat)
  carFlags : Pos → List Bool

/-- Bounds check: 0 <= x < width and 0 <= y < height. -/
def inBounds (g : SGrid) (p : Pos) : Bool :=
  decide (0 ≤ p.1) && decide (p.1 < g.width) && decide (0 ≤ p.2) && decide (p.2 < g.height)

/-- The has_car test of a_star_pathfinding: any Car agent in the cell. -/
def hasCar (g : SGrid) (p : Pos) : Bool :=
  !(g.carFlags p).isEmpty

/-- Car.is_traffic_light_red: (True, timeToChange) when the cell holds a red
light, (False, 0) otherwise. -/
def is_traffic_light_red (g : SGrid) (p : Pos) : Bool × Nat :=
  match g.light p with
  | some (false, t) => (true, t)
  | _ => (false, 0)

/-- The red-light cost penalty min(timeToChange // 2, 5) of a_star_pathfinding. -/
def redPenalty (t : Nat) : Nat :=
  min (t / 2) 5

/-- Cost of stepping into a neighbor cell during the A* search: base 1,
plus 3 when the cell holds a car, plus the red-light penalty when the cell
holds a red light. -/
def moveCost (g : SGrid) (n : Pos) : Nat :=
  let c := if hasCar g n then 1 + 3 else 1
  match is_traffic_light_red g n with
  | (true, t) => c + redPenalty t
  | (false, _) => c

/-- The four candidate moves in the order checked by the Python code. -/
def possibleMoves (p : Pos) : List (Dir × Pos) :=
  [(Dir.Up, applyDir p Dir.Up), (Dir.Down, applyDir p Dir.Down),
   (Dir.Left, applyDir p Dir.Left), (Dir.Right, applyDir p Dir.Right)]

/-- Admissibility of a neighbor cell reached by moving in direction d:
in bounds, and then either a destination cell (accepted before the obstacle
test, exactly as in the source) or an unobstructed road whose direction is
compatible with d. -/
def neighborOk (g : SGrid) (d : Dir) (n : Pos) : Bool :=
  inBounds g n &&
    (g.destMark n ||
      (!g.obstacle n &&
        match g.road n with
        | some nd => decide (nd ∈ allowedFrom d)
        | none => false))

/-- Car.get_pathfinding_neighbors: explores from the road direction of the
cell itself.  A cell with no road yields no neighbors (whether or not it is
a destination, both branches of the source return the empty list). -/
def get_pathfinding_neighbors (g : SGrid) (c : Pos) : List (Pos × Dir) :=
  match g.road c with
  | none => []
  | some rd =>
    (possibleMoves c).filterMap fun m =>
      if m.1 ∈ allowedFrom rd ∧ neighborOk g m.1 m.2 = true then some (m.2, m.1) else none

/-- An entry of the A* priority queue: (f_score, counter, cell, path). -/
structure Entry : Type where
  f : Nat
  ctr : Nat
  cell : Pos
  path : List Pos
deriving DecidableEq

/-- heapq ordering on entries: lexicographic on (f, counter); the counter is
unique per push so later tuple components are never compared. -/
def entryLe (a b : Entry) : Bool :=
  decide (a.f < b.f) || (decide (a.f = b.f) && decide (a.ctr ≤ b.ctr))

/-- Extract the minimum entry (heapq.heappop) from the unordered list that
models the heap, returning it together with the remaining entries. -/
def popMin : List Entry → Option (Entry × List Entry)
  | [] => none
  | e :: es =>
    match popMin es with
    | none => some (e, [])
    | some (m, rest) => if entryLe e m then some (e, es) else some (m, e :: rest)

/-- Mutable state of the neighbor-relaxation loop: g_score map, push counter
and open list. -/
structure RelaxState : Type where
  gs : Pos → Option Nat
  ctr : Nat
  opn : List Entry

/-- Body of the neighbor loop of a_star_pathfinding: skip visited neighbors,
compute tentative_g_score = g_score[current] + move_cost and push an entry
with f = tentative + manhattan heuristic when it improves g_score. -/
def relaxOne (g : SGrid) (goal : Pos) (visited : List Pos) (p : List Pos) (gcur : Nat)
    (st : RelaxState) (nd : Pos × Dir) : RelaxState :=
  if nd.1 ∈ visited then st
  else
    let tg := gcur + moveCost g nd.1
    let better :=
      match st.gs nd.1 with
      | none => true
      | some old => decide (tg < old)
    if better then
      { gs := fun q => if q = nd.1 then some tg else st.gs q,
        ctr := st.ctr + 1,
        opn := ⟨tg + manhattan nd.1 goal, st.ctr + 1, nd.1, p ++ [nd.1]⟩ :: st.opn }
    else st

/-- Main loop of a_star_pathfinding.  The fuel argument counts the remaining
iterations (max_iterations - iterations in the source); each round pops the
minimum entry, returns its path if it reached the goal, skips it if its cell
was already visited, and otherwise expands its neighbors. -/
def aStarLoop (g : SGrid) (goal : Pos) :
    Nat → List Entry → List Pos → (Pos → Option Nat) → Nat → List Pos
  | 0, _, _, _, _ => []
  | fuel + 1, opn, visited, gs, ctr =>
    match popMin opn with
    | none => []
    | some (e, rest) =>
      if e.cell = goal then e.path
      else if e.cell ∈ visited then aStarLoop g goal fuel rest visited gs ctr
      else
        let visited' := e.cell :: visited
        let gcur := (gs e.cell).getD 0
        let st := (get_pathfinding_neighbors g e.cell).foldl
          (relaxOne g goal visited' e.path gcur) ⟨gs, ctr, rest⟩
        aStarLoop g goal fuel st.opn visited' st.gs st.ctr

/-- Car.a_star_pathfinding with the car's current cell and the destination
cell passed explicitly: initial heap [(0, 0, start, [start])], initial
g_score {start: 0}, cap of 10000 iterations. -/
def a_star_pathfinding (g : SGrid) (start goal : Pos) : List Pos :=
  aStarLoop g goal 10000 [⟨0, 0, start, [start]⟩] []
    (fun q => if q = start then some 0 else none) 0

/-- A Car agent's mutable state (agent.py, class Car): current cell,
destination cell (None possible), reached_destination flag, cached path,
path cursor and last movement direction. -/
structure CarRec : Type where
  id : Nat
  pos : Pos
  dst : Option Pos
  reached : Bool
  path : List Pos
  pathIndex : Nat
  lastDir : Option Dir
deriving DecidableEq

/-- A Traffic_Light agent: cell, state (false = red, true = green) and
toggle period timeToChange. -/
structure LightRec : Type where
  id : Nat
  pos : Pos
  state : Bool
  timeToChange : Nat
deriving DecidableEq

/-- The immutable part of the city map built by CityModel.__init__. -/
structure StaticGrid : Type where
  width : Int
  height : Int
  road : Pos → Option Dir
  obstacle : Pos → Bool
  destMark : Pos → Bool

/-- The whole simulation state owned by CityModel: static map, lights, cars,
mesa step counter, spawn configuration (corner road cells, destination list,
cars per spawn cycle), the id source for new agents and the state of the
single seeded random generator. -/
structure World : Type where
  sg : StaticGrid
  lights : List LightRec
  cars : List CarRec
  steps : Nat
  corners : List Pos
  destinations : List Pos
  carsPerSpawn : Nat
  nextId : Nat
  rng : Nat

/-- The read-only grid snapshot a car consults during one call of its step
method (cell.agents queries resolved against the current world). -/
def mkSnapshot (w : World) : SGrid where
  width := w.sg.width
  height := w.sg.height
  road := w.sg.road
  obstacle := w.sg.obstacle
  destMark := w.sg.destMark
  light := fun p => (w.lights.find? (fun l => l.pos = p)).map fun l => (l.state, l.timeToChange)
  carFlags := fun p => (w.cars.filter (fun c => c.pos = p)).map fun c => c.reached

/-- Car.is_cell_blocked: an obstacle, or a car that has not reached its
destination, occupies the cell. -/
def is_cell_blocked (w : World) (p : Pos) : Bool :=
  w.sg.obstacle p || w.cars.any fun c => c.pos = p && !c.reached

/-- Car.update_path: recompute the A* path and reset the cursor; with no
destination the router returns the empty path. -/
def update_path (w : World) (c : CarRec) : CarRec :=
  match c.dst with
  | some d => { c with path := a_star_pathfinding (mkSnapshot w) c.pos d, pathIndex := 0 }
  | none => { c with path := [], pathIndex := 0 }

/-- Car.get_next_cell_from_path: the cell after the cursor, None at or past
the end of the path. -/
def get_next_cell_from_path (c : CarRec) : Option Pos :=
  if c.path.isEmpty || decide (c.path.length ≤ c.pathIndex) then none
  else if c.pathIndex + 1 < c.path.length then c.path[c.pathIndex + 1]? else none

/-- Direction of a move from a to b, by the coordinate delta, with the
comparison order of Car.step (dx first, then dy). -/
def dirOfDelta (a b : Pos) : Option Dir :=
  if b.1 - a.1 > 0 then some Dir.Right
  else if b.1 - a.1 < 0 then some Dir.Left
  else if b.2 - a.2 > 0 then some Dir.Up
  else if b.2 - a.2 < 0 then some Dir.Down
  else none

/-- Replace the stored record of the car with the same id. -/
def setCar (w : World) (c : CarRec) : World :=
  { w with cars := w.cars.map fun x => if x.id = c.id then c else x }

/-- Car.step after the arrival check: recompute the path when none is
cached, sync the cursor when the current cell occurs in the cached path
(when it does not, the source's except-branch is unreachable and nothing
happens), then read the next cell and either stop for a red light, stop and
possibly re-plan when blocked, or move. -/
def carStepMove (w : World) (c : CarRec) : World :=
  let c1 := if c.path.isEmpty then update_path w c else c
  if c1.path.isEmpty then setCar w c1
  else
    let c2 := if c1.pos ∈ c1.path then { c1 with pathIndex := c1.path.indexOf c1.pos } else c1
    match get_next_cell_from_path c2 with
    | none => setCar w c2
    | some nxt =>
      let isNextDest := c2.dst = some nxt
      if ¬isNextDest ∧ (is_traffic_light_red (mkSnapshot w) nxt).1 = true then setCar w c2
      else if is_cell_blocked w nxt then
        let c3 :=
          if w.sg.obstacle nxt then update_path w c2
          else if w.steps % 5 = 0 then update_path w c2
          else c2
        setCar w c3
      else
        setCar w { c2 with pos := nxt, lastDir := dirOfDelta c2.pos nxt,
                           pathIndex := c2.pathIndex + 1 }

/-- Car.step for the car with the given id (a no-op when the car has been
removed).  A car standing on its destination cell marks itself arrived and
removes itself from the grid and from the agent set. -/
def carStep (w : World) (cid : Nat) : World :=
  match w.cars.find? (fun c => c.id = cid) with
  | none => w
  | some c =>
    match c.dst with
    | some d =>
      if c.pos = d then { w with cars := w.cars.filter fun x => x.id ≠ c.id }
      else carStepMove w c
    | none => carStepMove w c

/-- Traffic_Light.step as a function of the model step counter: toggle when
steps > 0 and steps is a multiple of timeToChange. -/
def lightStep (steps : Nat) (l : LightRec) : LightRec :=
  if steps > 0 ∧ steps % l.timeToChange = 0 then { l with state := !l.state } else l

/-- Traffic_Light.step applied to the light with the given id. -/
def lightStepW (w : World) (lid : Nat) : World :=
  { w with lights := w.lights.map fun l => if l.id = lid then lightStep w.steps l else l }

/-- Modelled from the spec: the simulation owns a single seeded random
generator (mesa's Model random, an external library component); its internal
state transition is modelled as a deterministic linear congruential step on
a natural-number state. -/
def rngNext (s : Nat) : Nat :=
  (s * 1103515245 + 12345) % 2147483648

/-- Modelled from the spec: draw a number below n from the seeded generator,
returning it with the successor generator state. -/
def rngBelow (s n : Nat) : Nat × Nat :=
  let s1 := rngNext s
  (s1 % n, s1)

/-- Remove the element at an index, returning it and the remaining list. -/
def pickOut : List α → Nat → Option (α × List α)
  | [], _ => none
  | x :: xs, 0 => some (x, xs)
  | x :: xs, n + 1 => (pickOut xs n).map fun r => (r.1, x :: r.2)

/-- Modelled from the spec: the full random shuffle of the agent set drawn
from the seeded generator (mesa's AgentSet.shuffle_do), as a Fisher-Yates
selection driven by rngBelow. -/
def shuffleList : Nat → List α → Nat → List α × Nat
  | 0, l, s => (l, s)
  | fuel + 1, l, s =>
    let r := rngBelow s l.length
    match pickOut l r.1 with
    | none => (l, r.2)
    | some (x, rest) =>
      let tl := shuffleList fuel rest r.2
      (x :: tl.1, tl.2)

/-- Shuffle a list with the seeded generator. -/
def shuffle (l : List α) (s : Nat) : List α × Nat :=
  shuffleList l.length l s

/-- Modelled from the spec: random.choice from the seeded generator. -/
def rngChoice (l : List α) (s : Nat) : Option α × Nat :=
  let r := rngBelow s l.length
  (l.get? r.1, r.2)

/-- An agent reference in the shuffled processing order; the fixed agents
without a step method (roads, obstacles, destinations) are omitted since
their steps are no-ops. -/
inductive AgentId : Type
  | car (n : Nat)
  | light (n : Nat)
deriving DecidableEq

/-- The active agent set of the model at the start of a tick. -/
def agentIds (w : World) : List AgentId :=
  (w.cars.map fun c => AgentId.car c.id) ++ (w.lights.map fun l => AgentId.light l.id)

/-- Dispatch one agent's step. -/
def stepAgent (w : World) (a : AgentId) : World :=
  match a with
  | AgentId.car n => carStep w n
  | AgentId.light n => lightStepW w n

/-- Creation of one Car (Car.__init__ called from the spawn loop): the car
is placed in its cell and registered first, then its initial path is
computed by update_path against the grid that already contains it. -/
def spawnCar (w : World) (cell d : Pos) : World :=
  { w with
    cars := (w.cars ++ [(⟨w.nextId, cell, some d, false, [], 0, none⟩ : CarRec)]).map fun c =>
      if c.id = w.nextId then
        { (⟨w.nextId, cell, some d, false, [], 0, none⟩ : CarRec) with
            path := a_star_pathfinding
              (mkSnapshot { w with
                cars := w.cars ++ [(⟨w.nextId, cell, some d, false, [], 0, none⟩ : CarRec)],
                nextId := w.nextId + 1 }) cell d }
      else c,
    nextId := w.nextId + 1 }

/-- CityModel spawn cycle, one iteration of the for-loop: cycle through the
corner road cells, skip an occupied corner, prefer destinations farther than
Manhattan distance 5, create the car and compute its initial path. -/
def spawnOne (w : World) (i : Nat) : World :=
  match w.corners.get? (i % w.corners.length) with
  | none => w
  | some cell =>
    if w.cars.any (fun c => c.pos = cell) then w
    else
      let avail := w.destinations.filter fun d =>
        (d.1 - cell.1).natAbs + (d.2 - cell.2).natAbs > 5
      let pool := if avail.isEmpty then w.destinations else avail
      let ch := rngChoice pool w.rng
      match ch.1 with
      | none => { w with rng := ch.2 }
      | some d => spawnCar { w with rng := ch.2 } cell d

/-- The spawn interval of model.py (spawn cars every 10 steps). -/
def spawn_interval : Nat := 10

/-- The spawn block of CityModel.step. -/
def spawnPhase (w : World) : World :=
  if w.steps % spawn_interval = 0 then
    if w.corners.isEmpty || w.destinations.isEmpty then w
    else (List.range w.carsPerSpawn).foldl spawnOne w
  else w

/-- CityModel.step: advance the mesa step counter, process every active
agent once in a freshly shuffled order, then run the spawn cycle. -/
def modelStep (w : World) : World :=
  let w1 : World := { w with steps := w.steps + 1 }
  let sh := shuffle (agentIds w1) w1.rng
  let w2 := sh.1.foldl stepAgent { w1 with rng := sh.2 }
  spawnPhase w2

/-- Run the simulation for a number of ticks. -/
def runTicks (w : World) : Nat → World
  | 0 => w
  | n + 1 => runTicks (modelStep w) n

/-- The per-tick occupancy snapshot: which cells the active cars occupy,
together with the light phases (the render/query interface of the spec). -/
def occupancySnapshot (w : World) : List (Nat × Pos) × List (Nat × Bool) :=
  (w.cars.map fun c => (c.id, c.pos), w.lights.map fun l => (l.id, l.state))

/-- At most one active (non-arrived) car per cell. -/
def uniqueOcc (w : World) : Prop :=
  ∀ c1 ∈ w.cars, ∀ c2 ∈ w.cars,
    c1.id ≠ c2.id → c1.reached = false → c2.reached = false → c1.pos ≠ c2.pos

/-- A cell holds an active car when some car in it has not reached its
destination. -/
def activeCarAt (g : SGrid) (p : Pos) : Bool :=
  (g.carFlags p).any fun r => !r

/-- C5: for a light with period p > 0, the state toggles exactly at the
ticks that are positive multiples of p (once per such tick), never at tick
0, and at every other tick the light is unchanged. -/
theorem light_toggles_at_period_multiples (l : LightRec) (hp : 0 < l.timeToChange) :
    (∀ t, 0 < t → t % l.timeToChange = 0 → (lightStep t l).state = !l.state) ∧
    lightStep 0 l = l ∧
    (∀ t, ¬(0 < t ∧ t % l.timeToChange = 0) → lightStep t l = l) ∧
    (∀ t, (0 < t ∧ t % l.timeToChange = 0) ↔ ∃ k, 0 < k ∧ t = k * l.timeToChange) := by
  refine ⟨?_, ?_, ?_, ?_⟩
  · intro t ht hm
    simp [lightStep, ht, hm]
  · simp [lightStep]
  · intro t ht
    simp only [lightStep, if_neg ht]
  · intro t
    constructor
    · rintro ⟨ht, hm⟩
      refine ⟨t / l.timeToChange, ?_, ?_⟩
      · rcases Nat.eq_zero_or_pos (t / l.timeToChange) with h0 | h0
        · have h2 := Nat.div_mul_cancel (Nat.dvd_of_mod_eq_zero hm)
          rw [h0] at h2
          omega
        · exact h0
      · exact (Nat.div_mul_cancel (Nat.dvd_of_mod_eq_zero hm)).symm
    · rintro ⟨k, hk, rfl⟩
      exact ⟨Nat.mul_pos hk hp, Nat.mul_mod_left k l.timeToChange⟩

/-- Witness for C5 at a concrete light with period 10. -/
theorem light_toggles_at_period_multiples_witness :
    (lightStep 20 ⟨0, (0, 0), true, 10⟩).state = !true ∧
    lightStep 7 ⟨0, (0, 0), true, 10⟩ = ⟨0, (0, 0), true, 10⟩ := by
  have h := light_toggles_at_period_multiples ⟨0, (0, 0), true, 10⟩ (by decide)
  exact ⟨h.1 20 (by decide) (by decide), h.2.2.1 7 (by decide)⟩

/-- C7: on any cell whose cars have all not yet arrived (the simulation
removes arrived cars from their cell in the same step that marks them
arrived), the A* edge cost into the cell is 1, plus 3 exactly when the cell
holds an active car, plus the red-light penalty exactly when the cell holds
a red light; the penalty is bounded by 5 and weakly increasing in the
light's period. -/
theorem move_cost_formula (g : SGrid) (n : Pos)
    (hclean : ∀ f ∈ g.carFlags n, f = false) :
    moveCost g n = 1 + (if activeCarAt g n then 3 else 0) +
      (match g.light n with
       | some (false, t) => redPenalty t
       | _ => 0) ∧
    (∀ t, redPenalty t ≤ 5) ∧
    (∀ a b, a ≤ b → redPenalty a ≤ redPenalty b) := by
  refine ⟨?_, ?_, ?_⟩
  · have hcar : hasCar g n = activeCarAt g n := by
      unfold hasCar activeCarAt
      cases h : g.carFlags n with
      | nil => simp
      | cons f fs =>
        have hf : f = false := hclean f (by simp [h])
        simp [hf]
    unfold moveCost is_traffic_light_red
    rw [hcar]
    rcases hl : g.light n with _ | ⟨st, t⟩
    · simp only []
      cases activeCarAt g n <;> simp
    · cases st
      · simp only []
        cases activeCarAt g n <;> simp [Nat.add_assoc]
      · simp only []
        cases activeCarAt g n <;> simp
  · intro t
    exact Nat.min_le_right _ _
  · intro a b hab
    unfold redPenalty
    have : a / 2 ≤ b / 2 := Nat.div_le_div_right hab
    omega

/-- Witness for C7 on a concrete cell holding one active car and a red
light of period 14 (edge cost 1 + 3 + min(7, 5) = 9). -/
theorem move_cost_formula_witness :
    moveCost
      { width := 3, height := 3, road := fun _ => some Dir.Right,
        obstacle := fun _ => false, destMark := fun _ => false,
        light := fun _ => some (false, 14), carFlags := fun _ => [false] }
      (1, 1) = 1 + (if true then 3 else 0) + redPenalty 14 := by
  have h := move_cost_formula
    { width := 3, height := 3, road := fun _ => some Dir.Right,
      obstacle := fun _ => false, destMark := fun _ => false,
      light := fun _ => some (false, 14), carFlags := fun _ => [false] }
    (1, 1) (by intro f hf; simpa using hf)
  simpa using h.1

/-- The concrete world exhibiting the stale-path desync of C8: one car at
(0, 0) whose cached path [(2, 2), (5, 0)] does not contain its current
cell. -/
def desyncWorld : World where
  sg :=
    { width := 10, height := 10, road := fun _ => some Dir.Right,
      obstacle := fun _ => false, destMark := fun p => p = (9, 9) }
  lights := []
  cars := [⟨0, (0, 0), some (9, 9), false, [(2, 2), (5, 0)], 0, none⟩]
  steps := 1
  corners := []
  destinations := [(9, 9)]
  carsPerSpawn := 0
  nextId := 1
  rng := 0

/-- C8: the re-plan on occupancy desync is dead code.  When the current
cell is absent from the non-empty cached path, Car.step does not invoke the
router (the ValueError handler is unreachable because list.index is guarded
by a membership test): the car keeps the stale path and advances to
path[path_index + 1], here jumping from (0, 0) to the non-adjacent (5, 0)
without any recomputation. -/
theorem desync_advances_stale_path :
    (carStep desyncWorld 0).cars =
      [⟨0, (5, 0), some (9, 9), false, [(2, 2), (5, 0)], 1, some Dir.Right⟩] := by
  decide

/-- Replacing a car by itself is the identity when its id is unambiguous. -/
theorem setCar_self (w : World) (c : CarRec)
    (huni : ∀ x ∈ w.cars, x.id = c.id → x = c) : setCar w c = w := by
  show { w with cars := _ } = w
  have hmap : w.cars.map (fun x => if x.id = c.id then c else x) = w.cars := by
    conv_rhs => rw [← List.map_id w.cars]
    apply List.map_congr_left
    intro x hx
    by_cases h : x.id = c.id
    · simp [h, (huni x hx h).symm]
    · simp [h]
  rw [hmap]

/-- C3: the embedded simulation step is a pure function of the world state;
all randomness (per-tick shuffle order and destination choice) is drawn
from the generator state stored in the world, so equal initial states —
in particular equal seeds and equal maps — produce identical occupancy
snapshots after any number of ticks. -/
theorem simulation_deterministic (w1 w2 : World) (h : w1 = w2) (n : Nat) :
    occupancySnapshot (runTicks w1 n) = occupancySnapshot (runTicks w2 n) ∧
    runTicks w1 n = runTicks w2 n := by
  subst h
  exact ⟨rfl, rfl⟩

/-- Witness for C3 on the concrete desync world after three ticks. -/
theorem simulation_deterministic_witness :
    occupancySnapshot (runTicks desyncWorld 3) = occupancySnapshot (runTicks desyncWorld 3) :=
  (simulation_deterministic desyncWorld desyncWorld rfl 3).1

/-- C6: with a synced cursor on a cached path, when the next path cell
hosts a red light and is not the destination the car's step changes
nothing at all; when the next path cell is the destination (and is not
blocked) the move happens regardless of any light there. -/
theorem red_light_rule (w : World) (c : CarRec) (d nxt : Pos)
    (hfind : w.cars.find? (fun x => x.id = c.id) = some c)
    (huni : ∀ x ∈ w.cars, x.id = c.id → x = c)
    (hdst : c.dst = some d)
    (hpos : c.pos ≠ d)
    (hne : c.path ≠ [])
    (hmem : c.pos ∈ c.path)
    (hidx : c.pathIndex = c.path.indexOf c.pos)
    (hnext : get_next_cell_from_path c = some nxt) :
    (nxt ≠ d → (is_traffic_light_red (mkSnapshot w) nxt).1 = true → carStep w c.id = w) ∧
    (nxt = d → is_cell_blocked w nxt = false →
      carStep w c.id =
        setCar w { c with pos := nxt, lastDir := dirOfDelta c.pos nxt,
                          pathIndex := c.pathIndex + 1 }) := by
  have hemp : c.path.isEmpty = false := by
    cases hc : c.path with
    | nil => exact absurd hc hne
    | cons a l => rfl
  have hc2 : ({ c with pathIndex := c.path.indexOf c.pos } : CarRec) = c := by
    rw [← hidx]
  rw [hdst] at hc2
  constructor
  · intro hnd hred
    have hcond : ¬((some d : Option Pos) = some nxt) ∧
        (is_traffic_light_red (mkSnapshot w) nxt).1 = true := by
      refine ⟨?_, hred⟩
      intro hcd
      exact hnd (Option.some.inj hcd).symm
    simp only [carStep, hfind, hdst, if_neg hpos, carStepMove, hemp, Bool.false_eq_true,
      if_false, if_pos hmem, hc2, hnext, if_pos hcond]
    exact setCar_self w c huni
  · intro hnd hblocked
    have hcond : ¬(¬((some d : Option Pos) = some nxt) ∧
        (is_traffic_light_red (mkSnapshot w) nxt).1 = true) := by
      rw [hnd]
      intro hcontra
      exact hcontra.1 rfl
    simp only [carStep, hfind, hdst, if_neg hpos, carStepMove, hemp, Bool.false_eq_true,
      if_false, if_pos hmem, hc2, hnext, if_neg hcond, hblocked, hidx]

/-- Concrete world for the first arm of C6: a red light on the next path
cell (1, 0), destination farther away at (5, 0). -/
def redWorldA : World where
  sg :=
    { width := 6, height := 1, road := fun _ => some Dir.Right,
      obstacle := fun _ => false, destMark := fun p => p = (5, 0) }
  lights := [⟨10, (1, 0), false, 10⟩]
  cars := [⟨0, (0, 0), some (5, 0), false, [(0, 0), (1, 0)], 0, none⟩]
  steps := 1
  corners := []
  destinations := [(5, 0)]
  carsPerSpawn := 0
  nextId := 1
  rng := 0

/-- Concrete world for the second arm of C6: the next path cell (1, 0) is
the destination itself and hosts a red light. -/
def redWorldB : World where
  sg :=
    { width := 6, height := 1, road := fun _ => some Dir.Right,
      obstacle := fun _ => false, destMark := fun p => p = (1, 0) }
  lights := [⟨10, (1, 0), false, 10⟩]
  cars := [⟨0, (0, 0), some (1, 0), false, [(0, 0), (1, 0)], 0, none⟩]
  steps := 1
  corners := []
  destinations := [(1, 0)]
  carsPerSpawn := 0
  nextId := 1
  rng := 0

/-- Witness for C6 on the two concrete worlds. -/
theorem red_light_rule_witness :
    carStep redWorldA 0 = redWorldA ∧
    carStep redWorldB 0 =
      setCar redWorldB
        { id := 0, pos := (1, 0), dst := some (1, 0), reached := false,
          path := [(0, 0), (1, 0)], pathIndex := 1, lastDir := some Dir.Right } := by
  constructor
  · exact (red_light_rule redWorldA ⟨0, (0, 0), some (5, 0), false, [(0, 0), (1, 0)], 0, none⟩
      (5, 0) (1, 0) (by decide) (by decide) rfl (by decide) (by decide) (by decide)
      (by decide) (by decide)).1 (by decide) (by decide)
  · exact (red_light_rule redWorldB ⟨0, (0, 0), some (1, 0), false, [(0, 0), (1, 0)], 0, none⟩
      (1, 0) (1, 0) (by decide) (by decide) rfl (by decide) (by decide) (by decide)
      (by decide) (by decide)).2 rfl (by decide)

/-- update_path leaves the car's id unchanged. -/
theorem update_path_id (w : World) (c : CarRec) : (update_path w c).id = c.id := by
  unfold update_path
  cases c.dst <;> rfl

/-- update_path leaves the car's position unchanged. -/
theorem update_path_pos (w : World) (c : CarRec) : (update_path w c).pos = c.pos := by
  unfold update_path
  cases c.dst <;> rfl

/-- update_path leaves the car's arrival flag unchanged. -/
theorem update_path_reached (w : World) (c : CarRec) :
    (update_path w c).reached = c.reached := by
  unfold update_path
  cases c.dst <;> rfl

/-- Occupancy facts about replacing one car record: when the replacement
keeps the car's id and arrival flag and its position is either unchanged or
demonstrably free, per-cell uniqueness is preserved and any observed move
is into a cell with no obstacle and no active car. -/
theorem setCar_spec (w : World) (c0 cX : CarRec) (cid : Nat)
    (hfind : w.cars.find? (fun x => x.id = cid) = some c0)
    (hid : cX.id = c0.id) (hre : cX.reached = c0.reached)
    (hsafe : cX.pos = c0.pos ∨
      (w.sg.obstacle cX.pos = false ∧
        ∀ x ∈ w.cars, x.reached = false → x.pos ≠ cX.pos)) :
    (uniqueOcc w → uniqueOcc (setCar w cX)) ∧
    (∀ c c', w.cars.find? (fun x => x.id = cid) = some c →
      c' ∈ (setCar w cX).cars → c'.id = cid → c'.pos ≠ c.pos →
      w.sg.obstacle c'.pos = false ∧
        ∀ x ∈ w.cars, x.reached = false → x.pos ≠ c'.pos) := by
  have hc0mem : c0 ∈ w.cars := List.mem_of_find?_eq_some hfind
  have hc0id : c0.id = cid := by
    have := List.find?_some hfind
    simpa using this
  have hmem' : ∀ y ∈ (setCar w cX).cars,
      ∃ x ∈ w.cars, y = if x.id = cX.id then cX else x := by
    intro y hy
    unfold setCar at hy
    simp only [List.mem_map] at hy
    obtain ⟨x, hx, hxy⟩ := hy
    exact ⟨x, hx, hxy.symm⟩
  constructor
  · intro huniq y1 hy1 y2 hy2 hids h1re h2re
    obtain ⟨x1, hx1, he1⟩ := hmem' y1 hy1
    obtain ⟨x2, hx2, he2⟩ := hmem' y2 hy2
    subst he1
    subst he2
    by_cases e1 : x1.id = cX.id <;> by_cases e2 : x2.id = cX.id
    · rw [if_pos e1, if_pos e2] at hids
      exact absurd rfl hids
    · rw [if_pos e1] at hids h1re ⊢
      rw [if_neg e2] at hids h2re ⊢
      rcases hsafe with hp | ⟨_, hfree⟩
      · rw [hp]
        have : c0.reached = false := by rw [← hre]; exact h1re
        exact huniq c0 hc0mem x2 hx2 (by rw [← hid]; exact hids) this h2re
      · exact fun hcontra => hfree x2 hx2 h2re hcontra.symm
    · rw [if_neg e1] at hids h1re ⊢
      rw [if_pos e2] at hids h2re ⊢
      rcases hsafe with hp | ⟨_, hfree⟩
      · rw [hp]
        have : c0.reached = false := by rw [← hre]; exact h2re
        exact fun hcontra =>
          (huniq c0 hc0mem x1 hx1 (by rw [← hid]; exact hids.symm) this h1re) hcontra.symm
      · exact hfree x1 hx1 h1re
    · rw [if_neg e1] at hids h1re ⊢
      rw [if_neg e2] at hids h2re ⊢
      exact huniq x1 hx1 x2 hx2 hids h1re h2re
  · intro c c' hfind2 hc' hcid hmove
    rw [hfind] at hfind2
    have hcc : c = c0 := (Option.some.inj hfind2).symm
    subst hcc
    obtain ⟨x, hx, he⟩ := hmem' c' hc'
    by_cases e : x.id = cX.id
    · rw [if_pos e] at he
      subst he
      rcases hsafe with hp | ⟨hobs, hfree⟩
      · exact absurd hp hmove
      · exact ⟨hobs, hfree⟩
    · rw [if_neg e] at he
      subst he
      rw [hid, hc0id] at e
      exact absurd hcid e

/-- Structural description of Car.step after the arrival check: whatever
branch is taken, the result replaces the stepped car by a record with the
same id and arrival flag whose position is unchanged unless the target cell
was checked to be free of obstacles and active cars. -/
theorem carStepMove_spec (w : World) (c0 : CarRec) :
    ∃ cX, carStepMove w c0 = setCar w cX ∧ cX.id = c0.id ∧ cX.reached = c0.reached ∧
      (cX.pos = c0.pos ∨
        (w.sg.obstacle cX.pos = false ∧
          ∀ x ∈ w.cars, x.reached = false → x.pos ≠ cX.pos)) := by
  unfold carStepMove
  set c1 := if c0.path.isEmpty then update_path w c0 else c0 with hc1
  have h1 : c1.id = c0.id ∧ c1.reached = c0.reached ∧ c1.pos = c0.pos := by
    rw [hc1]
    by_cases h : c0.path.isEmpty <;>
      simp [h, update_path_id, update_path_reached, update_path_pos]
  by_cases hA : c1.path.isEmpty
  · rw [if_pos hA]
    exact ⟨c1, rfl, h1.1, h1.2.1, Or.inl h1.2.2⟩
  · rw [if_neg hA]
    set c2 := if c1.pos ∈ c1.path then { c1 with pathIndex := c1.path.indexOf c1.pos } else c1
      with hc2
    have h2a : c2.id = c1.id ∧ c2.reached = c1.reached ∧ c2.pos = c1.pos := by
      rw [hc2]
      by_cases h : c1.pos ∈ c1.path <;> simp [h]
    have h2 : c2.id = c0.id ∧ c2.reached = c0.reached ∧ c2.pos = c0.pos :=
      ⟨h2a.1.trans h1.1, h2a.2.1.trans h1.2.1, h2a.2.2.trans h1.2.2⟩
    cases hnx : get_next_cell_from_path c2 with
    | none =>
      simp only [hnx]
      exact ⟨c2, rfl, h2.1, h2.2.1, Or.inl h2.2.2⟩
    | some nxt =>
      simp only [hnx]
      by_cases hred : ¬(c2.dst = some nxt) ∧ (is_traffic_light_red (mkSnapshot w) nxt).1 = true
      · rw [if_pos hred]
        exact ⟨c2, rfl, h2.1, h2.2.1, Or.inl h2.2.2⟩
      · rw [if_neg hred]
        by_cases hbl : is_cell_blocked w nxt = true
        · rw [if_pos hbl]
          set c3 := if w.sg.obstacle nxt = true then update_path w c2
            else if w.steps % 5 = 0 then update_path w c2 else c2 with hc3
          have h3a : c3.id = c2.id ∧ c3.reached = c2.reached ∧ c3.pos = c2.pos := by
            rw [hc3]
            by_cases ho : w.sg.obstacle nxt = true <;>
              by_cases hs : w.steps % 5 = 0 <;>
              simp [ho, hs, update_path_id, update_path_reached, update_path_pos]
          have h3 : c3.id = c0.id ∧ c3.reached = c0.reached ∧ c3.pos = c0.pos :=
            ⟨h3a.1.trans h2.1, h3a.2.1.trans h2.2.1, h3a.2.2.trans h2.2.2⟩
          exact ⟨c3, rfl, h3.1, h3.2.1, Or.inl h3.2.2⟩
        · rw [if_neg hbl]
          refine ⟨_, rfl, h2.1, h2.2.1, Or.inr ?_⟩
          have hbl2 : is_cell_blocked w nxt = false := by
            cases h : is_cell_blocked w nxt
            · rfl
            · exact absurd h hbl
          unfold is_cell_blocked at hbl2
          simp only [Bool.or_eq_false_iff, List.any_eq_false] at hbl2
          constructor
          · exact hbl2.1
          · intro x hx hxre hcontra
            have := hbl2.2 x hx
            simp [hcontra, hxre] at this

/-- One car's step preserves per-cell uniqueness of active cars. -/
theorem carStep_uniq (w : World) (cid : Nat) (h : uniqueOcc w) :
    uniqueOcc (carStep w cid) := by
  cases hfind : w.cars.find? (fun x => x.id = cid) with
  | none =>
    unfold carStep
    rw [hfind]
    exact h
  | some c0 =>
    have hmove : uniqueOcc (carStepMove w c0) := by
      obtain ⟨cX, heq, hid, hre, hsafe⟩ := carStepMove_spec w c0
      rw [heq]
      exact (setCar_spec w c0 cX cid hfind hid hre hsafe).1 h
    unfold carStep
    rw [hfind]
    cases hdst : c0.dst with
    | none =>
      simpa [hdst] using hmove
    | some d =>
      simp only [hdst]
      by_cases hp : c0.pos = d
      · simp only [if_pos hp]
        intro y1 h1 y2 h2 hids r1 r2
        exact h y1 (List.mem_of_mem_filter h1) y2 (List.mem_of_mem_filter h2) hids r1 r2
      · simpa [if_neg hp] using hmove

/-- One car's step never moves the car into a cell holding an obstacle or
an active car. -/
theorem carStep_safe (w : World) (cid : Nat) (c c' : CarRec)
    (hfind : w.cars.find? (fun x => x.id = cid) = some c)
    (hc' : c' ∈ (carStep w cid).cars) (hcid : c'.id = cid) (hmove : c'.pos ≠ c.pos) :
    w.sg.obstacle c'.pos = false ∧
      ∀ x ∈ w.cars, x.reached = false → x.pos ≠ c'.pos := by
  have hcidc : c.id = cid := by simpa using List.find?_some hfind
  unfold carStep at hc'
  rw [hfind] at hc'
  have hmovecase : c' ∈ (carStepMove w c).cars →
      w.sg.obstacle c'.pos = false ∧
        ∀ x ∈ w.cars, x.reached = false → x.pos ≠ c'.pos := by
    intro hc2
    obtain ⟨cX, heq, hid, hre, hsafe⟩ := carStepMove_spec w c
    rw [heq] at hc2
    exact (setCar_spec w c cX cid hfind hid hre hsafe).2 c c' hfind hc2 hcid hmove
  cases hdst : c.dst with
  | none =>
    simp only [hdst] at hc'
    exact hmovecase hc'
  | some d =>
    simp only [hdst] at hc'
    by_cases hp : c.pos = d
    · rw [if_pos hp] at hc'
      have h2 := (List.mem_filter.mp hc').2
      have h3 : c'.id ≠ c.id := by simpa using h2
      rw [hcidc] at h3
      exact absurd hcid h3
    · rw [if_neg hp] at hc'
      exact hmovecase hc'

/-- Every car id is below the model's id source. -/
def idsBelow (w : World) : Prop :=
  ∀ x ∈ w.cars, x.id < w.nextId

/-- A car's step keeps the set of car ids inside the id bound. -/
theorem carStep_idsBelow (w : World) (cid : Nat) (h : idsBelow w) :
    idsBelow (carStep w cid) := by
  cases hfind : w.cars.find? (fun x => x.id = cid) with
  | none =>
    unfold carStep
    rw [hfind]
    exact h
  | some c0 =>
    have hc0 : c0 ∈ w.cars := List.mem_of_find?_eq_some hfind
    have hmove : idsBelow (carStepMove w c0) := by
      obtain ⟨cX, heq, hid, hre, hsafe⟩ := carStepMove_spec w c0
      rw [heq]
      intro y hy
      unfold setCar at hy
      simp only [List.mem_map] at hy
      obtain ⟨x, hx, hxy⟩ := hy
      by_cases e : x.id = cX.id
      · rw [if_pos e] at hxy
        rw [← hxy]
        show cX.id < _
        rw [hid]
        exact h c0 hc0
      · rw [if_neg e] at hxy
        rw [← hxy]
        exact h x hx
    unfold carStep
    rw [hfind]
    cases hdst : c0.dst with
    | none =>
      simpa [hdst] using hmove
    | some d =>
      simp only [hdst]
      by_cases hp : c0.pos = d
      · simp only [if_pos hp]
        intro y hy
        exact h y (List.mem_of_mem_filter hy)
      · simpa [if_neg hp] using hmove

/-- A light's step does not touch the car list or the id source. -/
theorem lightStepW_cars (w : World) (lid : Nat) :
    (lightStepW w lid).cars = w.cars ∧ (lightStepW w lid).nextId = w.nextId :=
  ⟨rfl, rfl⟩

/-- Any single agent step preserves occupancy uniqueness and the id bound. -/
theorem stepAgent_inv (w : World) (a : AgentId) (h : uniqueOcc w ∧ idsBelow w) :
    uniqueOcc (stepAgent w a) ∧ idsBelow (stepAgent w a) := by
  cases a with
  | car n => exact ⟨carStep_uniq w n h.1, carStep_idsBelow w n h.2⟩
  | light n =>
    constructor
    · intro y1 h1 y2 h2
      exact h.1 y1 h1 y2 h2
    · intro y hy
      exact h.2 y hy

/-- Folding agent steps over any processing order preserves the invariant. -/
theorem foldl_stepAgent_inv (l : List AgentId) :
    ∀ w : World, uniqueOcc w ∧ idsBelow w →
      uniqueOcc (l.foldl stepAgent w) ∧ idsBelow (l.foldl stepAgent w) := by
  induction l with
  | nil => intro w h; exact h
  | cons a l ih =>
    intro w h
    exact ih (stepAgent w a) (stepAgent_inv w a h)

/-- Replacing the freshly appended car record by its path-completed version
touches only the new record when every existing id is below the fresh id. -/
theorem map_fresh_append (cars : List CarRec) (nid : Nat)
    (hb : ∀ x ∈ cars, x.id < nid) (a b : CarRec) (ha : a.id = nid) :
    (cars ++ [a]).map (fun c => if c.id = nid then b else c) = cars ++ [b] := by
  rw [List.map_append]
  congr 1
  · conv_rhs => rw [← List.map_id cars]
    apply List.map_congr_left
    intro x hx
    have hne : x.id ≠ nid := Nat.ne_of_lt (hb x hx)
    simp [hne]
  · simp [ha]

/-- Spawning one car at a free cell preserves occupancy uniqueness and the
id bound. -/
theorem spawnCar_inv (w : World) (cell d : Pos)
    (hfree : ∀ x ∈ w.cars, x.pos ≠ cell) (h : uniqueOcc w ∧ idsBelow w) :
    uniqueOcc (spawnCar w cell d) ∧ idsBelow (spawnCar w cell d) := by
  have hw : spawnCar w cell d =
      { w with
        cars := w.cars ++
          [{ (⟨w.nextId, cell, some d, false, [], 0, none⟩ : CarRec) with
              path := a_star_pathfinding
                (mkSnapshot { w with
                  cars := w.cars ++ [⟨w.nextId, cell, some d, false, [], 0, none⟩],
                  nextId := w.nextId + 1 }) cell d }],
        nextId := w.nextId + 1 } := by
    unfold spawnCar
    rw [map_fresh_append w.cars w.nextId h.2 _ _ rfl]
  rw [hw]
  constructor
  · intro y1 h1 y2 h2 hids r1 r2
    simp only [List.mem_append, List.mem_singleton] at h1 h2
    rcases h1 with h1 | h1 <;> rcases h2 with h2 | h2
    · exact h.1 y1 h1 y2 h2 hids r1 r2
    · subst h2
      exact fun hc => hfree y1 h1 (by simpa using hc)
    · subst h1
      exact fun hc => hfree y2 h2 (by simpa using hc.symm)
    · subst h1
      subst h2
      exact absurd rfl hids
  · intro y hy
    simp only [List.mem_append, List.mem_singleton] at hy
    show y.id < w.nextId + 1
    rcases hy with hy | hy
    · exact Nat.lt_succ_of_lt (h.2 y hy)
    · subst hy
      exact Nat.lt_succ_self _

/-- One spawn iteration preserves occupancy uniqueness and the id bound:
the spawn cell is skipped when any car occupies it, and the fresh car gets
a fresh id. -/
theorem spawnOne_inv (w : World) (i : Nat) (h : uniqueOcc w ∧ idsBelow w) :
    uniqueOcc (spawnOne w i) ∧ idsBelow (spawnOne w i) := by
  unfold spawnOne
  cases hcell : w.corners.get? (i % w.corners.length) with
  | none => exact h
  | some cell =>
    simp only []
    by_cases hocc : w.cars.any (fun c => c.pos = cell) = true
    · rw [if_pos hocc]
      exact h
    · rw [if_neg hocc]
      have hfree : ∀ x ∈ w.cars, x.pos ≠ cell := by
        intro x hx
        have := (List.any_eq_false).mp (Bool.eq_false_iff.mpr hocc) x hx
        simpa using this
      cases hch : (rngChoice (if (w.destinations.filter fun d =>
          (d.1 - cell.1).natAbs + (d.2 - cell.2).natAbs > 5).isEmpty then w.destinations
          else w.destinations.filter fun d =>
            (d.1 - cell.1).natAbs + (d.2 - cell.2).natAbs > 5) w.rng).1 with
      | none =>
        simp only [hch]
        exact ⟨fun y1 h1 y2 h2 => h.1 y1 h1 y2 h2, fun y hy => h.2 y hy⟩
      | some d =>
        simp only [hch]
        exact spawnCar_inv _ cell d hfree
          ⟨fun y1 h1 y2 h2 => h.1 y1 h1 y2 h2, fun y hy => h.2 y hy⟩

/-- The spawn phase preserves the invariant. -/
theorem spawnPhase_inv (w : World) (h : uniqueOcc w ∧ idsBelow w) :
    uniqueOcc (spawnPhase w) ∧ idsBelow (spawnPhase w) := by
  unfold spawnPhase
  by_cases h10 : w.steps % spawn_interval = 0
  · rw [if_pos h10]
    by_cases hng : w.corners.isEmpty || w.destinations.isEmpty
    · rw [if_pos hng]
      exact h
    · rw [if_neg hng]
      have : ∀ l : List Nat, ∀ w0 : World, uniqueOcc w0 ∧ idsBelow w0 →
          uniqueOcc (l.foldl spawnOne w0) ∧ idsBelow (l.foldl spawnOne w0) := by
        intro l
        induction l with
        | nil => intro w0 h0; exact h0
        | cons i l ih => intro w0 h0; exact ih (spawnOne w0 i) (spawnOne_inv w0 i h0)
      exact this (List.range w.carsPerSpawn) w h
  · rw [if_neg h10]
    exact h

/-- A full tick preserves the invariant. -/
theorem modelStep_inv (w : World) (h : uniqueOcc w ∧ idsBelow w) :
    uniqueOcc (modelStep w) ∧ idsBelow (modelStep w) := by
  unfold modelStep
  apply spawnPhase_inv
  apply foldl_stepAgent_inv
  exact ⟨fun y1 h1 y2 h2 => h.1 y1 h1 y2 h2, fun y hy => h.2 y hy⟩

/-- C1: a car's step never moves it into a cell already holding an active
car or an obstacle, a single car step preserves the at-most-one-active-car-
per-cell invariant, and with the id bound of the model the invariant is
preserved across every full tick, hence holds at every tick boundary. -/
theorem occupancy_invariant (w : World) (cid : Nat) :
    (uniqueOcc w → uniqueOcc (carStep w cid)) ∧
    (∀ c c', w.cars.find? (fun x => x.id = cid) = some c →
      c' ∈ (carStep w cid).cars → c'.id = cid → c'.pos ≠ c.pos →
      w.sg.obstacle c'.pos = false ∧
        ∀ x ∈ w.cars, x.reached = false → x.pos ≠ c'.pos) ∧
    (uniqueOcc w → idsBelow w → ∀ n, uniqueOcc (runTicks w n)) := by
  refine ⟨carStep_uniq w cid, carStep_safe w cid, ?_⟩
  intro hu hb n
  induction n generalizing w with
  | zero => exact hu
  | succ n ih =>
    show uniqueOcc (runTicks (modelStep w) n)
    have h2 := modelStep_inv w ⟨hu, hb⟩
    exact ih (modelStep w) h2.1 h2.2

/-- Witness for C1 on the concrete one-car desync world. -/
theorem occupancy_invariant_witness :
    uniqueOcc (carStep desyncWorld 0) ∧ uniqueOcc (runTicks desyncWorld 2) := by
  have h := occupancy_invariant desyncWorld 0
  refine ⟨h.1 ?_, h.2.2 ?_ ?_ 2⟩
  · intro c1 h1 c2 h2 hids r1 r2
    simp only [desyncWorld, List.mem_singleton] at h1 h2
    rw [h1, h2] at hids
    exact absurd rfl hids
  · intro c1 h1 c2 h2 hids r1 r2
    simp only [desyncWorld, List.mem_singleton] at h1 h2
    rw [h1, h2] at hids
    exact absurd rfl hids
  · intro x hx
    simp only [desyncWorld, List.mem_singleton] at hx
    rw [hx]
    exact Nat.lt_succ_self 0

/-- One legal move of the pathfinding graph: b is an admissible neighbor
of a (for some direction of travel). -/
def stepRel (g : SGrid) (a b : Pos) : Prop :=
  ∃ d, (b, d) ∈ get_pathfinding_neighbors g a

/-- A legal path of the pathfinding graph. -/
def ValidChain (g : SGrid) (p : List Pos) : Prop :=
  List.Chain' (stepRel g) p

/-- Total cost of a path: the sum of the costs of entering every cell after
the first, exactly the accumulated tentative_g_score of the search. -/
def pathCost (g : SGrid) (p : List Pos) : Nat :=
  ((p.drop 1).map (moveCost g)).sum

/-- Every edge costs at least the base cost 1. -/
theorem moveCost_pos (g : SGrid) (n : Pos) : 1 ≤ moveCost g n := by
  unfold moveCost
  cases h : is_traffic_light_red g n with
  | mk b t =>
    cases b <;> cases hc : hasCar g n <;> simp [hc] <;> omega

/-- Unpacking membership in get_pathfinding_neighbors: the neighbor is the
one-step move of the cell in an exit direction allowed by the cell's road,
and it passed the admissibility test. -/
theorem neighbors_mem (g : SGrid) (a : Pos) (b : Pos) (d : Dir)
    (h : (b, d) ∈ get_pathfinding_neighbors g a) :
    b = applyDir a d ∧ (∃ rd, g.road a = some rd ∧ d ∈ allowedFrom rd) ∧
      neighborOk g d b = true := by
  unfold get_pathfinding_neighbors at h
  cases hr : g.road a with
  | none => rw [hr] at h; simp at h
  | some rd =>
    rw [hr] at h
    simp only [List.mem_filterMap] at h
    obtain ⟨m, hm, hif⟩ := h
    by_cases hc : m.1 ∈ allowedFrom rd ∧ neighborOk g m.1 m.2 = true
    · rw [if_pos hc] at hif
      have h12 : m.2 = b ∧ m.1 = d := by simpa using hif
      obtain ⟨h1, h2⟩ := h12
      subst h1
      subst h2
      refine ⟨?_, ⟨rd, rfl, hc.1⟩, hc.2⟩
      unfold possibleMoves at hm
      simp only [List.mem_cons, List.not_mem_nil, or_false] at hm
      rcases hm with h | h | h | h <;> rw [h]
    · rw [if_neg hc] at hif
      exact absurd hif (by simp)

/-- An admissible neighbor is a different cell. -/
theorem neighbors_ne (g : SGrid) (a b : Pos) (d : Dir)
    (h : (b, d) ∈ get_pathfinding_neighbors g a) : b ≠ a := by
  have hb := (neighbors_mem g a b d h).1
  subst hb
  cases d <;> simp [applyDir, Prod.ext_iff] <;> omega

/-- The Manhattan heuristic changes by at most one along an edge, so with
edge costs at least 1 it is consistent. -/
theorem manhattan_consistent (g : SGrid) (a b : Pos) (d : Dir) (t : Pos)
    (h : (b, d) ∈ get_pathfinding_neighbors g a) :
    manhattan a t ≤ moveCost g b + manhattan b t := by
  have hb := (neighbors_mem g a b d h).1
  subst hb
  have h1 := moveCost_pos g (applyDir a d)
  have h2 : manhattan a t ≤ 1 + manhattan (applyDir a d) t := by
    cases d <;> unfold manhattan applyDir <;> simp <;> omega
  omega

/-- A nonempty suffix of cells telescopes the heuristic: the head's
heuristic is at most the path cost to the last cell plus its heuristic. -/
theorem manhattan_telescope (g : SGrid) (t : Pos) :
    ∀ (r : List Pos) (x z : Pos), ValidChain g (x :: r) →
      (x :: r).getLast? = some z →
      manhattan x t ≤ ((r.map (moveCost g)).sum + manhattan z t) := by
  intro r
  induction r with
  | nil =>
    intro x z hchain hlast
    simp only [List.getLast?_singleton, Option.some.injEq] at hlast
    subst hlast
    simp
  | cons y r ih =>
    intro x z hchain hlast
    have hstep : stepRel g x y := (List.chain'_cons.mp hchain).1
    have hchain2 : ValidChain g (y :: r) := (List.chain'_cons.mp hchain).2
    have hlast2 : (y :: r).getLast? = some z := by
      rw [List.getLast?_cons_cons] at hlast
      exact hlast
    obtain ⟨d, hd⟩ := hstep
    have h1 := manhattan_consistent g x y d t hd
    have h2 := ih y z hchain2 hlast2
    simp only [List.map_cons, List.sum_cons]
    omega

/-- Path cost of appending one more cell to a nonempty path. -/
theorem pathCost_append_one (g : SGrid) (p : List Pos) (n : Pos) (hp : p ≠ []) :
    pathCost g (p ++ [n]) = pathCost g p + moveCost g n := by
  unfold pathCost
  cases p with
  | nil => exact absurd rfl hp
  | cons a l => simp

/-- Path cost of gluing a suffix onto a nonempty prefix. -/
theorem pathCost_append (g : SGrid) (p q : List Pos) (hp : p ≠ []) :
    pathCost g (p ++ q) = pathCost g p + (q.map (moveCost g)).sum := by
  unfold pathCost
  cases p with
  | nil => exact absurd rfl hp
  | cons a l => simp

/-- Prefixes cost at most the whole path. -/
theorem pathCost_take_le (g : SGrid) (p : List Pos) (i : Nat) :
    pathCost g (p.take i) ≤ pathCost g p := by
  unfold pathCost
  have h1 : (p.take i).drop 1 = (p.drop 1).take (i - 1) := List.drop_take ..
  rw [h1, List.map_take]
  conv_rhs => rw [← List.take_append_drop (i - 1) ((p.drop 1).map (moveCost g))]
  rw [List.sum_append]
  exact Nat.le_add_right _ _

/-- popMin returns none exactly on the empty heap. -/
theorem popMin_eq_none (l : List Entry) : popMin l = none ↔ l = [] := by
  cases l with
  | nil => simp [popMin]
  | cons e es =>
    simp only [popMin]
    cases h : popMin es with
    | none => simp
    | some pr =>
      obtain ⟨m, rest⟩ := pr
      by_cases hle : entryLe e m = true <;> simp [hle]

/-- The popped entry plus the rest is a permutation of the heap. -/
theorem popMin_perm (l : List Entry) (e : Entry) (rest : List Entry)
    (h : popMin l = some (e, rest)) : l.Perm (e :: rest) := by
  induction l generalizing e rest with
  | nil => simp [popMin] at h
  | cons a es ih =>
    simp only [popMin] at h
    cases hes : popMin es with
    | none =>
      simp only [hes] at h
      have h12 : a = e ∧ [] = rest := by simpa using h
      obtain ⟨rfl, h2⟩ := h12
      rw [← h2, (popMin_eq_none es).mp hes]
    | some pr =>
      obtain ⟨m, rest0⟩ := pr
      simp only [hes] at h
      have hperm := ih m rest0 hes
      by_cases hle : entryLe a m = true
      · rw [if_pos hle] at h
        have h12 : a = e ∧ es = rest := by simpa using h
        obtain ⟨rfl, rfl⟩ := h12
        rfl
      · rw [if_neg hle] at h
        have h12 : m = e ∧ a :: rest0 = rest := by simpa using h
        obtain ⟨rfl, h2⟩ := h12
        rw [← h2]
        exact (List.Perm.cons a hperm).trans (List.Perm.swap m a rest0)

/-- The popped entry has the minimum f-score of the heap. -/
theorem popMin_min (l : List Entry) (e : Entry) (rest : List Entry)
    (h : popMin l = some (e, rest)) : ∀ x ∈ rest, e.f ≤ x.f := by
  induction l generalizing e rest with
  | nil => simp [popMin] at h
  | cons a es ih =>
    simp only [popMin] at h
    cases hes : popMin es with
    | none =>
      simp only [hes] at h
      have h12 : a = e ∧ [] = rest := by simpa using h
      obtain ⟨rfl, h2⟩ := h12
      intro x hx
      rw [← h2] at hx
      simp at hx
    | some pr =>
      obtain ⟨m, rest0⟩ := pr
      simp only [hes] at h
      have hmin := ih m rest0 hes
      have hperm := popMin_perm es m rest0 hes
      by_cases hle : entryLe a m = true
      · rw [if_pos hle] at h
        have h12 : a = e ∧ es = rest := by simpa using h
        obtain ⟨rfl, rfl⟩ := h12
        have haf : a.f ≤ m.f := by
          unfold entryLe at hle
          simp only [Bool.or_eq_true, Bool.and_eq_true, decide_eq_true_eq] at hle
          rcases hle with h | ⟨h, _⟩ <;> omega
        intro x hx
        rcases List.mem_cons.mp (hperm.mem_iff.mp hx) with rfl | hx2
        · exact haf
        · exact le_trans haf (hmin x hx2)
      · rw [if_neg hle] at h
        have h12 : m = e ∧ a :: rest0 = rest := by simpa using h
        obtain ⟨rfl, h2⟩ := h12
        rw [← h2]
        have haf : m.f ≤ a.f := by
          unfold entryLe at hle
          simp only [Bool.or_eq_true, Bool.and_eq_true, decide_eq_true_eq,
            not_or, not_and] at hle
          omega
        intro x hx
        rcases List.mem_cons.mp hx with rfl | hx2
        · exact haf
        · exact hmin x hx2

/-- Effect of one neighbor relaxation on the open list and the score map:
old entries survive, any new entry is the push for this neighbor, scores
never increase, only this neighbor's score can change (to the tentative
score), defined scores are witnessed, and an unvisited neighbor ends up
with a score at most the tentative score. -/
theorem relaxOne_spec (g : SGrid) (goal : Pos) (visited' : List Pos) (p : List Pos)
    (gcur : Nat) (st : RelaxState) (nd : Pos × Dir) :
    (∀ x ∈ st.opn, x ∈ (relaxOne g goal visited' p gcur st nd).opn) ∧
    (∀ x ∈ (relaxOne g goal visited' p gcur st nd).opn, x ∈ st.opn ∨
      (nd.1 ∉ visited' ∧ x.cell = nd.1 ∧ x.path = p ++ [nd.1] ∧ x.ctr ≠ 0 ∧
        x.f = gcur + moveCost g nd.1 + manhattan nd.1 goal ∧
        ∀ v0, st.gs nd.1 = some v0 → gcur + moveCost g nd.1 < v0)) ∧
    (∀ z v0, st.gs z = some v0 →
      ∃ v1, (relaxOne g goal visited' p gcur st nd).gs z = some v1 ∧ v1 ≤ v0) ∧
    (∀ z, (relaxOne g goal visited' p gcur st nd).gs z = st.gs z ∨
      (z ∉ visited' ∧ z = nd.1 ∧
        (relaxOne g goal visited' p gcur st nd).gs z = some (gcur + moveCost g nd.1))) ∧
    (∀ z v, (relaxOne g goal visited' p gcur st nd).gs z = some v →
      st.gs z = some v ∨
      (∃ x ∈ (relaxOne g goal visited' p gcur st nd).opn, x.cell = z ∧ x.path = p ++ [z] ∧
        v = gcur + moveCost g z)) ∧
    (nd.1 ∉ visited' → ∃ vn, (relaxOne g goal visited' p gcur st nd).gs nd.1 = some vn ∧
      vn ≤ gcur + moveCost g nd.1) := by
  unfold relaxOne
  by_cases hv : nd.1 ∈ visited'
  · rw [if_pos hv]
    exact ⟨fun x hx => hx, fun x hx => Or.inl hx, fun z v0 h0 => ⟨v0, h0, Nat.le_refl v0⟩,
      fun z => Or.inl rfl, fun z v hv2 => Or.inl hv2, fun hc => absurd hv hc⟩
  · rw [if_neg hv]
    cases hgs : st.gs nd.1 with
    | none =>
      simp only [hgs, if_pos]
      refine ⟨?_, ?_, ?_, ?_, ?_, ?_⟩
      · intro x hx
        exact List.mem_cons_of_mem _ hx
      · intro x hx
        rcases List.mem_cons.mp hx with rfl | hx2
        · refine Or.inr ⟨hv, rfl, rfl, Nat.succ_ne_zero _, rfl, ?_⟩
          intro v0 h0
          exact absurd h0 (by simp)
        · exact Or.inl hx2
      · intro z v0 h0
        by_cases hz : z = nd.1
        · rw [hz, hgs] at h0
          exact absurd h0 (by simp)
        · exact ⟨v0, by simpa [hz] using h0, Nat.le_refl v0⟩
      · intro z
        by_cases hz : z = nd.1
        · subst hz
          exact Or.inr ⟨hv, rfl, by simp⟩
        · exact Or.inl (by simp [hz])
      · intro z v hzv
        by_cases hz : z = nd.1
        · subst hz
          simp only [if_pos rfl] at hzv
          have hveq : v = gcur + moveCost g nd.1 := (Option.some.inj hzv).symm
          exact Or.inr ⟨_, List.mem_cons_self .., rfl, rfl, hveq⟩
        · simp only [if_neg hz] at hzv
          exact Or.inl hzv
      · intro _
        exact ⟨gcur + moveCost g nd.1, by simp, Nat.le_refl _⟩
    | some old =>
      simp only [hgs]
      by_cases himp : gcur + moveCost g nd.1 < old
      · rw [if_pos (decide_eq_true himp)]
        refine ⟨?_, ?_, ?_, ?_, ?_, ?_⟩
        · intro x hx
          exact List.mem_cons_of_mem _ hx
        · intro x hx
          rcases List.mem_cons.mp hx with rfl | hx2
          · refine Or.inr ⟨hv, rfl, rfl, Nat.succ_ne_zero _, rfl, ?_⟩
            intro v0 h0
            have := Option.some.inj h0
            omega
          · exact Or.inl hx2
        · intro z v0 h0
          by_cases hz : z = nd.1
          · subst hz
            rw [hgs] at h0
            have hv0 : v0 = old := (Option.some.inj h0).symm
            subst hv0
            exact ⟨gcur + moveCost g nd.1, by simp, Nat.le_of_lt himp⟩
          · exact ⟨v0, by simpa [hz] using h0, Nat.le_refl v0⟩
        · intro z
          by_cases hz : z = nd.1
          · subst hz
            exact Or.inr ⟨hv, rfl, by simp⟩
          · exact Or.inl (by simp [hz])
        · intro z v hzv
          by_cases hz : z = nd.1
          · subst hz
            simp only [if_pos rfl] at hzv
            have hveq : v = gcur + moveCost g nd.1 := (Option.some.inj hzv).symm
            exact Or.inr ⟨_, List.mem_cons_self .., rfl, rfl, hveq⟩
          · simp only [if_neg hz] at hzv
            exact Or.inl hzv
        · intro _
          exact ⟨gcur + moveCost g nd.1, by simp, Nat.le_refl _⟩
      · rw [if_neg (fun hc => himp (of_decide_eq_true hc))]
        refine ⟨fun x hx => hx, fun x hx => Or.inl hx,
          fun z v0 h0 => ⟨v0, h0, Nat.le_refl v0⟩, fun z => Or.inl rfl,
          fun z v hv2 => Or.inl hv2, fun _ => ⟨old, hgs, ?_⟩⟩
        omega

/-- Effect of the whole neighbor-relaxation fold. -/
theorem relax_fold (g : SGrid) (goal : Pos) (visited' : List Pos) (p : List Pos)
    (gcur : Nat) :
    ∀ (ns : List (Pos × Dir)) (st0 : RelaxState),
    (∀ x ∈ st0.opn, x ∈ (ns.foldl (relaxOne g goal visited' p gcur) st0).opn) ∧
    (∀ x ∈ (ns.foldl (relaxOne g goal visited' p gcur) st0).opn, x ∈ st0.opn ∨
      ∃ nd ∈ ns, nd.1 ∉ visited' ∧ x.cell = nd.1 ∧ x.path = p ++ [nd.1] ∧ x.ctr ≠ 0 ∧
        x.f = gcur + moveCost g nd.1 + manhattan nd.1 goal ∧
        ∀ v0, st0.gs nd.1 = some v0 → gcur + moveCost g nd.1 < v0) ∧
    (∀ z v0, st0.gs z = some v0 →
      ∃ v1, (ns.foldl (relaxOne g goal visited' p gcur) st0).gs z = some v1 ∧ v1 ≤ v0) ∧
    (∀ z, (ns.foldl (relaxOne g goal visited' p gcur) st0).gs z = st0.gs z ∨
      (z ∉ visited' ∧ (∃ nd ∈ ns, z = nd.1) ∧
        (ns.foldl (relaxOne g goal visited' p gcur) st0).gs z =
          some (gcur + moveCost g z))) ∧
    (∀ z v, (ns.foldl (relaxOne g goal visited' p gcur) st0).gs z = some v →
      st0.gs z = some v ∨
      (∃ x ∈ (ns.foldl (relaxOne g goal visited' p gcur) st0).opn, x.cell = z ∧
        x.path = p ++ [z] ∧ v = gcur + moveCost g z)) ∧
    (∀ nd ∈ ns, nd.1 ∉ visited' →
      ∃ vn, (ns.foldl (relaxOne g goal visited' p gcur) st0).gs nd.1 = some vn ∧
        vn ≤ gcur + moveCost g nd.1) := by
  intro ns
  induction ns with
  | nil =>
    intro st0
    refine ⟨fun x hx => hx, fun x hx => Or.inl hx,
      fun z v0 h0 => ⟨v0, h0, Nat.le_refl v0⟩, fun z => Or.inl rfl,
      fun z v hv => Or.inl hv, ?_⟩
    intro nd hnd
    simp at hnd
  | cons nd ns ih =>
    intro st0
    have hstep := relaxOne_spec g goal visited' p gcur st0 nd
    set st1 := relaxOne g goal visited' p gcur st0 nd with hst1
    have htail := ih st1
    simp only [List.foldl_cons, ← hst1]
    refine ⟨?_, ?_, ?_, ?_, ?_, ?_⟩
    · intro x hx
      exact htail.1 x (hstep.1 x hx)
    · intro x hx
      rcases htail.2.1 x hx with h1 | ⟨nd2, hnd2, hv2, hc2, hp2, hct2, hf2, himp2⟩
      · rcases hstep.2.1 x h1 with h2 | h2
        · exact Or.inl h2
        · exact Or.inr ⟨nd, List.mem_cons_self .., h2⟩
      · refine Or.inr ⟨nd2, List.mem_cons_of_mem _ hnd2, hv2, hc2, hp2, hct2, hf2, ?_⟩
        intro v0 h0
        obtain ⟨v1, hv1, hle1⟩ := hstep.2.2.1 nd2.1 v0 h0
        have := himp2 v1 hv1
        omega
    · intro z v0 h0
      obtain ⟨v1, hv1, hle1⟩ := hstep.2.2.1 z v0 h0
      obtain ⟨v2, hv2, hle2⟩ := htail.2.2.1 z v1 hv1
      exact ⟨v2, hv2, Nat.le_trans hle2 hle1⟩
    · intro z
      rcases htail.2.2.2.1 z with h1 | ⟨hnv, ⟨nd2, hnd2, hz2⟩, hval⟩
      · rw [h1]
        rcases hstep.2.2.2.1 z with h2 | ⟨hnv, hz2, hval⟩
        · exact Or.inl h2
        · exact Or.inr ⟨hnv, ⟨nd, List.mem_cons_self .., hz2⟩, by rw [← hz2] at hval; exact hval⟩
      · exact Or.inr ⟨hnv, ⟨nd2, List.mem_cons_of_mem _ hnd2, hz2⟩, hval⟩
    · intro z v hzv
      rcases htail.2.2.2.2.1 z v hzv with h1 | h2
      · rcases hstep.2.2.2.2.1 z v h1 with h2 | ⟨x, hx, hrest⟩
        · exact Or.inl h2
        · exact Or.inr ⟨x, htail.1 x hx, hrest⟩
      · exact Or.inr h2
    · intro nd2 hnd2 hnv
      rcases List.mem_cons.mp hnd2 with rfl | hnd3
      · obtain ⟨vn, hvn, hle⟩ := hstep.2.2.2.2.2 hnv
        obtain ⟨v2, hv2, hle2⟩ := htail.2.2.1 nd2.1 vn hvn
        exact ⟨v2, hv2, Nat.le_trans hle2 hle⟩
      · exact htail.2.2.2.2.2 nd2 hnd3 hnv

/-- The head of a list extended on the right. -/
theorem head?_append_left (p q : List Pos) (hp : p ≠ []) :
    (p ++ q).head? = p.head? := by
  cases p with
  | nil => exact absurd rfl hp
  | cons a l => rfl

/-- The last element of a list extended on the left by a nonempty suffix. -/
theorem getLast?_append_right (p q : List Pos) (hq : q ≠ []) :
    (p ++ q).getLast? = q.getLast? := by
  induction p with
  | nil => rfl
  | cons a l ih =>
    cases hl : l ++ q with
    | nil =>
      rcases List.append_eq_nil.mp hl with ⟨_, h2⟩
      exact absurd h2 hq
    | cons b t =>
      show (a :: (l ++ q)).getLast? = q.getLast?
      rw [hl, List.getLast?_cons_cons, ← hl, ih]

/-- Extending a legal chain by one admissible step. -/
theorem chain_snoc (g : SGrid) (p : List Pos) (a b : Pos)
    (hc : ValidChain g p) (hl : p.getLast? = some a) (hr : stepRel g a b) :
    ValidChain g (p ++ [b]) := by
  apply List.chain'_append.mpr
  refine ⟨hc, List.chain'_singleton b, ?_⟩
  intro x hx y hy
  rw [hl] at hx
  simp only [Option.mem_def, Option.some.injEq] at hx
  simp only [List.head?_cons, Option.mem_def, Option.some.injEq] at hy
  rw [← hx, ← hy]
  exact hr

/-- The inductive invariant of the A* loop.  opn is the open heap, visited
the closed set, gs the g_score map and lastF the f-score of the last popped
entry. -/
structure AStarInv (g : SGrid) (start goal : Pos) (opn : List Entry)
    (visited : List Pos) (gs : Pos → Option Nat) (lastF : Nat) : Prop where
  entries_chain : ∀ e ∈ opn, ValidChain g e.path ∧ e.path.head? = some start ∧
    e.path.getLast? = some e.cell ∧ e.path.Nodup
  entries_gs : ∀ e ∈ opn, ∀ i c, e.path[i]? = some c →
    ∃ v, gs c = some v ∧ v ≤ pathCost g (e.path.take (i + 1))
  entries_f : ∀ e ∈ opn,
    (e.ctr = 0 → e.f = 0 ∧ e.cell = start ∧ e.path = [start]) ∧
    (e.ctr ≠ 0 → e.f = pathCost g e.path + manhattan e.cell goal)
  entries_lastF : ∀ e ∈ opn, lastF ≤ e.f
  gs_witness : ∀ z, z ∉ visited → ∀ v, gs z = some v →
    ∃ e ∈ opn, e.cell = z ∧ pathCost g e.path = v
  visited_opt : ∀ z ∈ visited, ∃ v, gs z = some v ∧
    ∀ r, ValidChain g r → r.head? = some start → r.getLast? = some z →
      v ≤ pathCost g r
  visited_edge : ∀ z ∈ visited, ∀ v, gs z = some v →
    ∀ nd ∈ get_pathfinding_neighbors g z,
      ∃ vn, gs nd.1 = some vn ∧ vn ≤ v + moveCost g nd.1
  visited_lastF : ∀ z ∈ visited, z ≠ start → ∀ v, gs z = some v →
    v + manhattan z goal ≤ lastF
  frontier : ∀ q, ValidChain g q → q.head? = some start → ∀ z, q.getLast? = some z →
    z ∉ visited → ∃ pre x suf, q = pre ++ x :: suf ∧ x ∉ visited ∧
      ∃ v, gs x = some v ∧ v ≤ pathCost g (pre ++ [x])
  start_mem : start ∈ visited ∨
    (opn = [⟨0, 0, start, [start]⟩] ∧ visited = [] ∧
      gs = fun q => if q = start then some 0 else none)
  goal_not_visited : goal ∉ visited

/-- The f-score of the popped entry is a lower bound for the cost (plus
remaining heuristic) of every legal chain from the start to an unvisited
cell.  This is the heart of the A* optimality argument: the frontier
decomposition provides a live entry whose f-score the popped minimum cannot
exceed, and consistency of the Manhattan heuristic telescopes along the
remaining suffix. -/
theorem popped_f_bound (g : SGrid) (start goal : Pos) (opn : List Entry)
    (visited : List Pos) (gs : Pos → Option Nat) (lastF : Nat) (e : Entry)
    (rest : List Entry)
    (inv : AStarInv g start goal opn visited gs lastF)
    (hpop : popMin opn = some (e, rest)) :
    ∀ q z, ValidChain g q → q.head? = some start → q.getLast? = some z →
      z ∉ visited → e.f ≤ pathCost g q + manhattan z goal := by
  intro q z hchain hhead hlast hnv
  obtain ⟨pre, x, suf, hq, hxnv, vx, hgsx, hvx⟩ :=
    inv.frontier q hchain hhead z hlast hnv
  obtain ⟨e2, he2mem, he2cell, he2cost⟩ := inv.gs_witness x hxnv vx hgsx
  have hperm := popMin_perm opn e rest hpop
  have hfmin : e.f ≤ e2.f := by
    rcases List.mem_cons.mp (hperm.mem_iff.mp he2mem) with rfl | h2
    · exact Nat.le_refl _
    · exact popMin_min opn e rest hpop e2 h2
  have he2f : e2.f ≤ vx + manhattan x goal := by
    have hf := inv.entries_f e2 he2mem
    by_cases hctr : e2.ctr = 0
    · have := (hf.1 hctr).1
      omega
    · have := hf.2 hctr
      rw [this, he2cost, he2cell]
  have hsuffix : ValidChain g (x :: suf) := by
    have : ValidChain g (pre ++ x :: suf) := by rw [← hq]; exact hchain
    exact (List.chain'_append.mp this).2.1
  have hlast2 : (x :: suf).getLast? = some z := by
    rw [hq] at hlast
    rwa [getLast?_append_right pre (x :: suf) (by simp)] at hlast
  have htele := manhattan_telescope g goal suf x z hsuffix hlast2
  have hcost : pathCost g q = pathCost g (pre ++ [x]) + (suf.map (moveCost g)).sum := by
    rw [hq]
    have : pre ++ x :: suf = (pre ++ [x]) ++ suf := by simp
    rw [this, pathCost_append g (pre ++ [x]) suf (by simp)]
  omega

/-- When an unvisited entry is popped, its recorded g_score equals the cost
of its own path: a cheaper live entry for the same cell would have a
strictly smaller f-score and would have been popped first. -/
theorem popped_gs_eq (g : SGrid) (start goal : Pos) (opn : List Entry)
    (visited : List Pos) (gs : Pos → Option Nat) (lastF : Nat) (e : Entry)
    (rest : List Entry)
    (inv : AStarInv g start goal opn visited gs lastF)
    (hpop : popMin opn = some (e, rest))
    (hnv : e.cell ∉ visited) :
    gs e.cell = some (pathCost g e.path) := by
  have hperm := popMin_perm opn e rest hpop
  have hemem : e ∈ opn := hperm.mem_iff.mpr (List.mem_cons_self ..)
  obtain ⟨hchain, hhead, hlast, hnodup⟩ := inv.entries_chain e hemem
  have hne : e.path ≠ [] := by
    intro hcon
    rw [hcon] at hhead
    simp at hhead
  have hlen : e.path.length - 1 < e.path.length := by
    cases hp : e.path with
    | nil => exact absurd hp hne
    | cons a l => simp
  have hgetlast : e.path[e.path.length - 1]? = some e.cell := by
    rw [List.getLast?_eq_getElem?] at hlast
    exact hlast
  obtain ⟨vc, hvc, hvcle⟩ := inv.entries_gs e hemem (e.path.length - 1) e.cell hgetlast
  have htake : e.path.take (e.path.length - 1 + 1) = e.path := by
    have : e.path.length - 1 + 1 = e.path.length := by
      cases hp : e.path with
      | nil => exact absurd hp hne
      | cons a l => simp
    rw [this, List.take_length]
  rw [htake] at hvcle
  obtain ⟨e2, he2mem, he2cell, he2cost⟩ := inv.gs_witness e.cell hnv vc hvc
  have hfmin : e.f ≤ e2.f := by
    rcases List.mem_cons.mp (hperm.mem_iff.mp he2mem) with rfl | h2
    · exact Nat.le_refl _
    · exact popMin_min opn e rest hpop e2 h2
  have hfe := inv.entries_f e hemem
  have hfe2 := inv.entries_f e2 he2mem
  by_cases hctr : e.ctr = 0
  · obtain ⟨_, _, hp⟩ := hfe.1 hctr
    rw [hp]
    have : pathCost g [start] = 0 := rfl
    rw [this]
    rw [hp] at hvcle
    have : vc = 0 := by
      have h0 : pathCost g [start] = 0 := rfl
      omega
    rw [← this]
    exact hvc
  · have hef : e.f = pathCost g e.path + manhattan e.cell goal := hfe.2 hctr
    by_cases hctr2 : e2.ctr = 0
    · obtain ⟨_, he2start, _⟩ := hfe2.1 hctr2
      have hcellstart : e.cell = start := by rw [← he2cell, he2start]
      rcases inv.start_mem with hs | ⟨hopn, _, _⟩
      · rw [hcellstart] at hnv
        exact absurd hs hnv
      · rw [hopn] at hemem
        simp only [List.mem_singleton] at hemem
        rw [hemem] at hctr
        exact absurd rfl hctr
    · have he2f : e2.f = vc + manhattan e.cell goal := by
        rw [hfe2.2 hctr2, he2cost, he2cell]
      have : pathCost g e.path ≤ vc := by
        rw [hef, he2f] at hfmin
        omega
      have hveq : vc = pathCost g e.path := Nat.le_antisymm hvcle this
      rw [← hveq]
      exact hvc

/-- Walking a legal chain from a closed cell to an unvisited endpoint must
cross the frontier: some cell of the chain is unvisited and carries a
recorded score bounded by the accumulated cost from the chain's head. -/
theorem frontier_walk (g : SGrid) (visited2 : List Pos) (gs2 : Pos → Option Nat)
    (hedge : ∀ z ∈ visited2, ∀ v, gs2 z = some v →
      ∀ nd ∈ get_pathfinding_neighbors g z,
        ∃ vn, gs2 nd.1 = some vn ∧ vn ≤ v + moveCost g nd.1) :
    ∀ (suf : List Pos) (y : Pos) (By B : Nat) (z : Pos),
      y ∈ visited2 → gs2 y = some By → By ≤ B →
      ValidChain g (y :: suf) → (y :: suf).getLast? = some z → z ∉ visited2 →
      ∃ pre2 x2 suf2, y :: suf = pre2 ++ x2 :: suf2 ∧ x2 ∉ visited2 ∧
        ∃ vx, gs2 x2 = some vx ∧ vx ≤ B + pathCost g (pre2 ++ [x2]) := by
  intro suf
  induction suf with
  | nil =>
    intro y By B z hy hgy hByB hchain hlast hz
    have : y = z := by simpa using hlast
    rw [this] at hy
    exact absurd hy hz
  | cons n suf2 ih =>
    intro y By B z hy hgy hByB hchain hlast hz
    have hstep : stepRel g y n := (List.chain'_cons.mp hchain).1
    obtain ⟨d, hd⟩ := hstep
    obtain ⟨vn, hgn, hvn0⟩ := hedge y hy By hgy (n, d) hd
    have hvn : vn ≤ By + moveCost g n := by simpa using hvn0
    by_cases hnv : n ∈ visited2
    · have hchain2 : ValidChain g (n :: suf2) := (List.chain'_cons.mp hchain).2
      have hlast2 : (n :: suf2).getLast? = some z := by
        rw [List.getLast?_cons_cons] at hlast
        exact hlast
      obtain ⟨pre3, x2, suf3, hdec, hx2nv, vx, hgx, hvx⟩ :=
        ih n vn (B + moveCost g n) z hnv hgn (by omega) hchain2 hlast2 hz
      cases pre3 with
      | nil =>
        have hx2 : n = x2 := by simpa using congrArg List.head? hdec
        rw [← hx2] at hx2nv
        exact absurd hnv hx2nv
      | cons p0 pre4 =>
        have hp0 : n = p0 := by simpa using congrArg List.head? hdec
        subst hp0
        refine ⟨y :: n :: pre4, x2, suf3, congrArg (List.cons y) hdec, hx2nv, vx, hgx, ?_⟩
        have hcost : pathCost g ((y :: n :: pre4) ++ [x2]) =
            moveCost g n + pathCost g ((n :: pre4) ++ [x2]) := by
          unfold pathCost
          simp
        rw [hcost]
        omega
    · refine ⟨[y], n, suf2, rfl, hnv, vn, hgn, ?_⟩
      have hcost : pathCost g ([y] ++ [n]) = moveCost g n := by
        unfold pathCost
        simp
      rw [hcost]
      omega

/-- Expanding the popped minimum entry preserves the loop invariant, with
the popped entry's f-score as the new last-popped bound. -/
theorem expand_preserves (g : SGrid) (start goal : Pos) (opn rest : List Entry)
    (visited : List Pos) (gs : Pos → Option Nat) (ctr lastF : Nat) (e : Entry)
    (inv : AStarInv g start goal opn visited gs lastF)
    (hpop : popMin opn = some (e, rest))
    (hgoal : e.cell ≠ goal)
    (hnv : e.cell ∉ visited) :
    AStarInv g start goal
      ((get_pathfinding_neighbors g e.cell).foldl
        (relaxOne g goal (e.cell :: visited) e.path ((gs e.cell).getD 0))
        ⟨gs, ctr, rest⟩).opn
      (e.cell :: visited)
      ((get_pathfinding_neighbors g e.cell).foldl
        (relaxOne g goal (e.cell :: visited) e.path ((gs e.cell).getD 0))
        ⟨gs, ctr, rest⟩).gs
      e.f := by
  have hperm := popMin_perm opn e rest hpop
  have hemem : e ∈ opn := hperm.mem_iff.mpr (List.mem_cons_self ..)
  have hrest_sub : ∀ x ∈ rest, x ∈ opn := fun x hx =>
    hperm.mem_iff.mpr (List.mem_cons_of_mem _ hx)
  have hrest_min : ∀ x ∈ rest, e.f ≤ x.f := popMin_min opn e rest hpop
  obtain ⟨hech, hehd, hels, hend⟩ := inv.entries_chain e hemem
  have hene : e.path ≠ [] := by
    intro hc
    rw [hc] at hehd
    simp at hehd
  have hgse : gs e.cell = some (pathCost g e.path) :=
    popped_gs_eq g start goal opn visited gs lastF e rest inv hpop hnv
  have hgcur : (gs e.cell).getD 0 = pathCost g e.path := by rw [hgse]; rfl
  rw [hgcur]
  obtain ⟨fA, fB, fC, fD, fF, fG⟩ :=
    relax_fold g goal (e.cell :: visited) e.path (pathCost g e.path)
      (get_pathfinding_neighbors g e.cell) ⟨gs, ctr, rest⟩
  set visited' := e.cell :: visited with hvis
  set ns := get_pathfinding_neighbors g e.cell with hns
  set stf := ns.foldl (relaxOne g goal visited' e.path (pathCost g e.path))
    ⟨gs, ctr, rest⟩ with hstf
  have hfrozen : ∀ z ∈ visited', stf.gs z = gs z := by
    intro z hz
    rcases fD z with h | ⟨hznv, _, _⟩
    · exact h
    · exact absurd hz hznv
  have hgse2 : stf.gs e.cell = some (pathCost g e.path) := by
    rw [hfrozen e.cell (List.mem_cons_self ..), hgse]
  have hef := inv.entries_f e hemem
  have hfe_ub : e.f ≤ pathCost g e.path + manhattan e.cell goal := by
    by_cases hctr : e.ctr = 0
    · have := (hef.1 hctr).1
      omega
    · rw [hef.2 hctr]
  have hstep_rel : ∀ nd ∈ ns, stepRel g e.cell nd.1 := by
    intro nd hnd
    exact ⟨nd.2, hnd⟩
  have hcons : ∀ nd ∈ ns, manhattan e.cell goal ≤ moveCost g nd.1 + manhattan nd.1 goal := by
    intro nd hnd
    exact manhattan_consistent g e.cell nd.1 nd.2 goal hnd
  have hbound := popped_f_bound g start goal opn visited gs lastF e rest inv hpop
  have hlastF_le : lastF ≤ e.f := inv.entries_lastF e hemem
  -- the new closed set is optimal at the expanded cell
  have hcell_opt : ∀ r, ValidChain g r → r.head? = some start →
      r.getLast? = some e.cell → pathCost g e.path ≤ pathCost g r := by
    intro r hrc hrh hrl
    have hb := hbound r e.cell hrc hrh hrl hnv
    by_cases hctr : e.ctr = 0
    · obtain ⟨-, -, hp⟩ := hef.1 hctr
      rw [hp]
      show pathCost g [start] ≤ pathCost g r
      have : pathCost g [start] = 0 := rfl
      omega
    · have := hef.2 hctr
      omega
  -- the new score map still satisfies the closed-set edge relaxation
  have hedge2 : ∀ z ∈ visited', ∀ v, stf.gs z = some v →
      ∀ nd ∈ get_pathfinding_neighbors g z,
        ∃ vn, stf.gs nd.1 = some vn ∧ vn ≤ v + moveCost g nd.1 := by
    intro z hz v hgv nd hnd
    rcases List.mem_cons.mp hz with rfl | hzv
    · rw [hgse2] at hgv
      have hv : v = pathCost g e.path := (Option.some.inj hgv).symm
      subst hv
      by_cases hndv : nd.1 ∈ visited'
      · have hfro := hfrozen nd.1 hndv
        rcases List.mem_cons.mp hndv with hcell | hvisit
        · exact absurd hcell (neighbors_ne g e.cell nd.1 nd.2 hnd)
        · by_cases hst : nd.1 = start
          · obtain ⟨v0, hgv0, hopt0⟩ := inv.visited_opt nd.1 hvisit
            have hv0 : v0 = 0 := by
              have := hopt0 [start] (List.chain'_singleton start) rfl (by rw [hst]; rfl)
              have hz0 : pathCost g [start] = 0 := rfl
              omega
            refine ⟨0, ?_, by omega⟩
            rw [hfro, ← hv0]
            exact hgv0
          · obtain ⟨v0, hgv0, _⟩ := inv.visited_opt nd.1 hvisit
            have hlf := inv.visited_lastF nd.1 hvisit hst v0 hgv0
            have hco := hcons nd hnd
            refine ⟨v0, by rw [hfro]; exact hgv0, ?_⟩
            by_cases hctr : e.ctr = 0
            · have := (hef.1 hctr).1
              omega
            · have := hef.2 hctr
              omega
      · obtain ⟨vn, hvn, hle⟩ := fG nd hnd hndv
        exact ⟨vn, hvn, hle⟩
    · have hfro := hfrozen z hz
      rw [hfro] at hgv
      obtain ⟨vn, hvn, hle⟩ := inv.visited_edge z hzv v hgv nd hnd
      obtain ⟨vn2, hvn2, hle2⟩ := fC nd.1 vn hvn
      exact ⟨vn2, hvn2, by omega⟩
  refine
    { entries_chain := ?_, entries_gs := ?_, entries_f := ?_, entries_lastF := ?_,
      gs_witness := ?_, visited_opt := ?_, visited_edge := hedge2,
      visited_lastF := ?_, frontier := ?_, start_mem := ?_, goal_not_visited := ?_ }
  · -- entries_chain
    intro x hx
    rcases fB x hx with hold | ⟨nd, hnd, hndnv, hcell, hpath, hctr0, hf, himp⟩
    · exact inv.entries_chain x (hrest_sub x hold)
    · refine ⟨?_, ?_, ?_, ?_⟩
      · rw [hpath]
        exact chain_snoc g e.path e.cell nd.1 hech hels (hstep_rel nd hnd)
      · rw [hpath, head?_append_left _ _ hene]
        exact hehd
      · rw [hpath, hcell, getLast?_append_right _ _ (by simp)]
        rfl
      · rw [hpath]
        have hnotin : nd.1 ∉ e.path := by
          intro hin
          obtain ⟨i, hget⟩ := List.mem_iff_getElem?.mp hin
          obtain ⟨v, hgv, hvle⟩ := inv.entries_gs e hemem i nd.1 hget
          have himp2 := himp v hgv
          have htle := pathCost_take_le g e.path (i + 1)
          have hmc := moveCost_pos g nd.1
          omega
        simp [List.nodup_append, hend, hnotin]
  · -- entries_gs
    intro x hx i c hget
    rcases fB x hx with hold | ⟨nd, hnd, hndnv, hcell, hpath, hctr0, hf, himp⟩
    · obtain ⟨v, hgv, hvle⟩ := inv.entries_gs x (hrest_sub x hold) i c hget
      obtain ⟨v2, hgv2, hle2⟩ := fC c v hgv
      exact ⟨v2, hgv2, by omega⟩
    · rw [hpath] at hget ⊢
      rw [List.getElem?_append] at hget
      by_cases hi : i < e.path.length
      · rw [if_pos hi] at hget
        obtain ⟨v, hgv, hvle⟩ := inv.entries_gs e hemem i c hget
        obtain ⟨v2, hgv2, hle2⟩ := fC c v hgv
        refine ⟨v2, hgv2, ?_⟩
        have htk : (e.path ++ [nd.1]).take (i + 1) = e.path.take (i + 1) := by
          rw [List.take_append_eq_append_take]
          have h0 : i + 1 - e.path.length = 0 := by omega
          rw [h0]
          simp
        rw [htk]
        omega
      · rw [if_neg hi] at hget
        have hc2 : i - e.path.length = 0 ∧ nd.1 = c := by
          cases hj : i - e.path.length with
          | zero =>
            rw [hj] at hget
            simpa using hget
          | succ k =>
            rw [hj] at hget
            simp at hget
        obtain ⟨hi0, hndc⟩ := hc2
        subst hndc
        obtain ⟨vn, hvn, hle⟩ := fG nd hnd hndnv
        refine ⟨vn, hvn, ?_⟩
        have hieq : i = e.path.length := by omega
        subst hieq
        have htk : (e.path ++ [nd.1]).take (e.path.length + 1) = e.path ++ [nd.1] := by
          apply List.take_of_length_le
          simp
        rw [htk, pathCost_append_one g e.path nd.1 hene]
        omega
  · -- entries_f
    intro x hx
    rcases fB x hx with hold | ⟨nd, hnd, hndnv, hcell, hpath, hctr0, hf, himp⟩
    · exact inv.entries_f x (hrest_sub x hold)
    · constructor
      · intro hc
        exact absurd hc hctr0
      · intro _
        rw [hf, hpath, hcell, pathCost_append_one g e.path nd.1 hene]
  · -- entries_lastF
    intro x hx
    rcases fB x hx with hold | ⟨nd, hnd, hndnv, hcell, hpath, hctr0, hf, himp⟩
    · exact hrest_min x hold
    · rw [hf]
      have := hcons nd hnd
      omega
  · -- gs_witness
    intro z hz v hgv
    rcases fF z v hgv with hold | ⟨x, hxmem, hxcell, hxpath, hveq⟩
    · have hznv : z ∉ visited := fun hc => hz (List.mem_cons_of_mem _ hc)
      obtain ⟨e2, he2mem, he2cell, he2cost⟩ := inv.gs_witness z hznv v hold
      have he2ne : e2 ≠ e := by
        intro hc
        rw [hc] at he2cell
        rw [← he2cell] at hz
        exact hz (List.mem_cons_self ..)
      have he2rest : e2 ∈ rest := by
        rcases List.mem_cons.mp (hperm.mem_iff.mp he2mem) with hc | h2
        · exact absurd hc he2ne
        · exact h2
      exact ⟨e2, fA e2 he2rest, he2cell, he2cost⟩
    · refine ⟨x, hxmem, hxcell, ?_⟩
      rw [hxpath, pathCost_append_one g e.path z hene, hveq]
  · -- visited_opt
    intro z hz
    rcases List.mem_cons.mp hz with rfl | hzv
    · exact ⟨pathCost g e.path, hgse2, hcell_opt⟩
    · obtain ⟨v, hgv, hopt⟩ := inv.visited_opt z hzv
      refine ⟨v, ?_, hopt⟩
      rw [hfrozen z hz]
      exact hgv
  · -- visited_lastF
    intro z hz hzs v hgv
    rcases List.mem_cons.mp hz with rfl | hzv
    · rw [hgse2] at hgv
      have hv : v = pathCost g e.path := (Option.some.inj hgv).symm
      subst hv
      have hctr : e.ctr ≠ 0 := by
        intro hc
        exact hzs (hef.1 hc).2.1
      rw [hef.2 hctr]
    · rw [hfrozen z hz] at hgv
      have := inv.visited_lastF z hzv hzs v hgv
      omega
  · -- frontier
    intro q hqc hqh z hql hznv
    have hznv0 : z ∉ visited := fun hc => hznv (List.mem_cons_of_mem _ hc)
    obtain ⟨pre, x, suf, hq, hxnv, vx, hgsx, hvx⟩ := inv.frontier q hqc hqh z hql hznv0
    by_cases hxe : x = e.cell
    · rw [hxe, hgse] at hgsx
      have hvxeq : vx = pathCost g e.path := (Option.some.inj hgsx).symm
      subst hvxeq
      have hsufc : ValidChain g (x :: suf) := by
        have hqc2 : ValidChain g (pre ++ x :: suf) := by rw [← hq]; exact hqc
        exact (List.chain'_append.mp hqc2).2.1
      have hsufl : (x :: suf).getLast? = some z := by
        rw [hq, getLast?_append_right pre (x :: suf) (by simp)] at hql
        exact hql
      have hxvis : x ∈ visited' := by
        rw [hvis, hxe]
        exact List.mem_cons_self ..
      have hgsx2 : stf.gs x = some (pathCost g e.path) := by
        rw [hxe]
        exact hgse2
      obtain ⟨pre2, x2, suf2, hdec, hx2nv, vx2, hgx2, hvx2⟩ :=
        frontier_walk g visited' stf.gs hedge2 suf x (pathCost g e.path)
          (pathCost g (pre ++ [x])) z hxvis hgsx2 hvx hsufc hsufl hznv
      cases pre2 with
      | nil =>
        have hxx2 : x = x2 := by simpa using congrArg List.head? hdec
        rw [← hxx2] at hx2nv
        exact absurd hxvis hx2nv
      | cons p0 pre3 =>
        have hp0 : x = p0 := by simpa using congrArg List.head? hdec
        rw [← hp0] at hdec hvx2
        refine ⟨pre ++ x :: pre3, x2, suf2, ?_, hx2nv, vx2, hgx2, ?_⟩
        · rw [hq]
          have hd2 : x :: suf = (x :: pre3) ++ x2 :: suf2 := hdec
          rw [hd2, List.append_assoc]
        · have hsplit : (pre ++ x :: pre3) ++ [x2] = (pre ++ [x]) ++ (pre3 ++ [x2]) := by
            simp
          rw [hsplit, pathCost_append g (pre ++ [x]) (pre3 ++ [x2]) (by simp)]
          have hc2 : pathCost g ((x :: pre3) ++ [x2]) = ((pre3 ++ [x2]).map (moveCost g)).sum := by
            unfold pathCost
            simp
          rw [hc2] at hvx2
          omega
    · have hxnv2 : x ∉ visited' := by
        intro hc
        rcases List.mem_cons.mp hc with hc2 | hc2
        · exact hxe hc2
        · exact hxnv hc2
      obtain ⟨v2, hgv2, hle2⟩ := fC x vx hgsx
      exact ⟨pre, x, suf, hq, hxnv2, v2, hgv2, by omega⟩
  · -- start_mem
    rcases inv.start_mem with hs | ⟨hopn, _, _⟩
    · exact Or.inl (List.mem_cons_of_mem _ hs)
    · left
      rw [hopn] at hemem
      simp only [List.mem_singleton] at hemem
      have : e.cell = start := by rw [hemem]
      rw [← this]
      exact List.mem_cons_self ..
  · -- goal_not_visited
    intro hc
    rcases List.mem_cons.mp hc with hc2 | hc2
    · exact hgoal hc2.symm
    · exact inv.goal_not_visited hc2

/-- Skipping a stale popped entry (cell already visited) preserves the
invariant, with the popped f-score as the new bound. -/
theorem skip_preserves (g : SGrid) (start goal : Pos) (opn rest : List Entry)
    (visited : List Pos) (gs : Pos → Option Nat) (lastF : Nat) (e : Entry)
    (inv : AStarInv g start goal opn visited gs lastF)
    (hpop : popMin opn = some (e, rest))
    (hv : e.cell ∈ visited) :
    AStarInv g start goal rest visited gs e.f := by
  have hperm := popMin_perm opn e rest hpop
  have hemem : e ∈ opn := hperm.mem_iff.mpr (List.mem_cons_self ..)
  have hrest_sub : ∀ x ∈ rest, x ∈ opn := fun x hx =>
    hperm.mem_iff.mpr (List.mem_cons_of_mem _ hx)
  refine
    { entries_chain := fun x hx => inv.entries_chain x (hrest_sub x hx),
      entries_gs := fun x hx => inv.entries_gs x (hrest_sub x hx),
      entries_f := fun x hx => inv.entries_f x (hrest_sub x hx),
      entries_lastF := popMin_min opn e rest hpop,
      gs_witness := ?_,
      visited_opt := inv.visited_opt,
      visited_edge := inv.visited_edge,
      visited_lastF := ?_,
      frontier := inv.frontier,
      start_mem := ?_,
      goal_not_visited := inv.goal_not_visited }
  · intro z hz v hgv
    obtain ⟨e2, he2mem, he2cell, he2cost⟩ := inv.gs_witness z hz v hgv
    have he2ne : e2 ≠ e := by
      intro hc
      rw [hc] at he2cell
      rw [← he2cell] at hz
      exact hz hv
    rcases List.mem_cons.mp (hperm.mem_iff.mp he2mem) with hc | h2
    · exact absurd hc he2ne
    · exact ⟨e2, h2, he2cell, he2cost⟩
  · intro z hz hzs v hgv
    have h1 := inv.visited_lastF z hz hzs v hgv
    have h2 := inv.entries_lastF e hemem
    omega
  · rcases inv.start_mem with hs | ⟨_, hvempty, _⟩
    · exact Or.inl hs
    · rw [hvempty] at hv
      simp at hv

/-- The invariant holds for the initial search state of
a_star_pathfinding. -/
theorem a_star_init (g : SGrid) (start goal : Pos) :
    AStarInv g start goal [⟨0, 0, start, [start]⟩] []
      (fun q => if q = start then some 0 else none) 0 := by
  refine
    { entries_chain := ?_, entries_gs := ?_, entries_f := ?_, entries_lastF := ?_,
      gs_witness := ?_, visited_opt := ?_, visited_edge := ?_, visited_lastF := ?_,
      frontier := ?_, start_mem := Or.inr ⟨rfl, rfl, rfl⟩, goal_not_visited := by simp }
  · intro e he
    simp only [List.mem_singleton] at he
    subst he
    exact ⟨List.chain'_singleton start, rfl, rfl, List.nodup_singleton start⟩
  · intro e he i c hget
    simp only [List.mem_singleton] at he
    subst he
    have hi0 : i = 0 ∧ c = start := by
      cases i with
      | zero =>
        refine ⟨rfl, ?_⟩
        simpa using hget.symm
      | succ k => simp at hget
    obtain ⟨rfl, rfl⟩ := hi0
    exact ⟨0, by simp, by simp [pathCost]⟩
  · intro e he
    simp only [List.mem_singleton] at he
    subst he
    exact ⟨fun _ => ⟨rfl, rfl, rfl⟩, fun hc => absurd rfl hc⟩
  · intro e he
    exact Nat.zero_le _
  · intro z hz v hgv
    by_cases hs : z = start
    · subst hs
      refine ⟨⟨0, 0, z, [z]⟩, List.mem_singleton.mpr rfl, rfl, ?_⟩
      simp only [if_pos rfl] at hgv
      have : v = 0 := (Option.some.inj hgv).symm
      rw [this]
      rfl
    · simp only [if_neg hs] at hgv
      exact absurd hgv (by simp)
  · intro z hz
    simp at hz
  · intro z hz
    simp at hz
  · intro z hz
    simp at hz
  · intro q hqc hqh z hql hznv
    cases hq0 : q with
    | nil =>
      rw [hq0] at hqh
      simp at hqh
    | cons a q2 =>
      rw [hq0] at hqh
      have ha : a = start := by simpa using hqh
      subst ha
      refine ⟨[], a, q2, by simp [hq0], by simp, 0, by simp, ?_⟩
      simp [pathCost]

/-- The A* loop, started from any state satisfying the invariant, either
returns the empty list or returns a duplicate-free legal path from start to
goal whose cost is minimal among all legal paths from start to goal. -/
theorem aStarLoop_correct (g : SGrid) (start goal : Pos) :
    ∀ (fuel : Nat) (opn : List Entry) (visited : List Pos) (gs : Pos → Option Nat)
      (ctr lastF : Nat), AStarInv g start goal opn visited gs lastF →
      aStarLoop g goal fuel opn visited gs ctr = [] ∨
      (ValidChain g (aStarLoop g goal fuel opn visited gs ctr) ∧
        (aStarLoop g goal fuel opn visited gs ctr).head? = some start ∧
        (aStarLoop g goal fuel opn visited gs ctr).getLast? = some goal ∧
        (aStarLoop g goal fuel opn visited gs ctr).Nodup ∧
        ∀ q, ValidChain g q → q.head? = some start → q.getLast? = some goal →
          pathCost g (aStarLoop g goal fuel opn visited gs ctr) ≤ pathCost g q) := by
  intro fuel
  induction fuel with
  | zero =>
    intro opn visited gs ctr lastF inv
    exact Or.inl rfl
  | succ fuel ih =>
    intro opn visited gs ctr lastF inv
    cases hpop : popMin opn with
    | none =>
      left
      simp only [aStarLoop, hpop]
    | some pr =>
      obtain ⟨e, rest⟩ := pr
      by_cases hg : e.cell = goal
      · right
        have hres : aStarLoop g goal (fuel + 1) opn visited gs ctr = e.path := by
          simp only [aStarLoop, hpop, if_pos hg]
        rw [hres]
        have hperm := popMin_perm opn e rest hpop
        have hemem : e ∈ opn := hperm.mem_iff.mpr (List.mem_cons_self ..)
        obtain ⟨hch, hhd, hls, hnd⟩ := inv.entries_chain e hemem
        refine ⟨hch, hhd, by rw [hls, hg], hnd, ?_⟩
        intro q hqc hqh hql
        have hb := popped_f_bound g start goal opn visited gs lastF e rest inv hpop
          q goal hqc hqh hql inv.goal_not_visited
        have h0 : manhattan goal goal = 0 := by
          unfold manhattan
          simp
        rw [h0] at hb
        have hef := inv.entries_f e hemem
        by_cases hctr : e.ctr = 0
        · obtain ⟨-, -, hp⟩ := hef.1 hctr
          rw [hp]
          show pathCost g [start] ≤ pathCost g q
          have hz0 : pathCost g [start] = 0 := rfl
          omega
        · have hfeq := hef.2 hctr
          rw [hg, h0] at hfeq
          omega
      · by_cases hv : e.cell ∈ visited
        · have hres : aStarLoop g goal (fuel + 1) opn visited gs ctr =
              aStarLoop g goal fuel rest visited gs ctr := by
            simp only [aStarLoop, hpop, if_neg hg, if_pos hv]
          rw [hres]
          exact ih rest visited gs ctr e.f
            (skip_preserves g start goal opn rest visited gs lastF e inv hpop hv)
        · have hres : aStarLoop g goal (fuel + 1) opn visited gs ctr =
              aStarLoop g goal fuel
                ((get_pathfinding_neighbors g e.cell).foldl
                  (relaxOne g goal (e.cell :: visited) e.path ((gs e.cell).getD 0))
                  ⟨gs, ctr, rest⟩).opn
                (e.cell :: visited)
                ((get_pathfinding_neighbors g e.cell).foldl
                  (relaxOne g goal (e.cell :: visited) e.path ((gs e.cell).getD 0))
                  ⟨gs, ctr, rest⟩).gs
                ((get_pathfinding_neighbors g e.cell).foldl
                  (relaxOne g goal (e.cell :: visited) e.path ((gs e.cell).getD 0))
                  ⟨gs, ctr, rest⟩).ctr := by
            simp only [aStarLoop, hpop, if_neg hg, if_neg hv]
          rw [hres]
          exact ih _ _ _ _ e.f
            (expand_preserves g start goal opn rest visited gs ctr lastF e inv hpop hg hv)

/-- Specification of a_star_pathfinding: the returned list is empty or is
a duplicate-free legal path from the start cell to the goal cell of
minimal total cost. -/
theorem a_star_spec (g : SGrid) (start goal : Pos) :
    a_star_pathfinding g start goal = [] ∨
    (ValidChain g (a_star_pathfinding g start goal) ∧
      (a_star_pathfinding g start goal).head? = some start ∧
      (a_star_pathfinding g start goal).getLast? = some goal ∧
      (a_star_pathfinding g start goal).Nodup ∧
      ∀ q, ValidChain g q → q.head? = some start → q.getLast? = some goal →
        pathCost g (a_star_pathfinding g start goal) ≤ pathCost g q) :=
  aStarLoop_correct g start goal 10000 [⟨0, 0, start, [start]⟩] []
    (fun q => if q = start then some 0 else none) 0 0 (a_star_init g start goal)

/-- No allowed exit direction is the reverse of the road direction. -/
theorem allowedFrom_not_reverse : ∀ rd d : Dir, d ∈ allowedFrom rd → d ≠ reverseDir rd := by
  intro rd d
  cases rd <;> cases d <;> decide

/-- One orthogonal move changes the position by exactly one. -/
theorem applyDir_adjacent (a : Pos) (d : Dir) :
    ((applyDir a d).1 - a.1).natAbs + ((applyDir a d).2 - a.2).natAbs = 1 := by
  cases d <;> simp [applyDir] <;> omega

/-- Decomposition of the admissibility test of a neighbor cell. -/
theorem neighborOk_elim (g : SGrid) (d : Dir) (b : Pos) (h : neighborOk g d b = true) :
    inBounds g b = true ∧ (g.destMark b = true ∨ (g.obstacle b = false ∧
      ∃ rdb, g.road b = some rdb ∧ rdb ∈ allowedFrom d)) := by
  unfold neighborOk at h
  simp only [Bool.and_eq_true, Bool.or_eq_true] at h
  refine ⟨h.1, ?_⟩
  rcases h.2 with hd | hroad
  · exact Or.inl hd
  · cases hr : g.road b with
    | none =>
      rw [hr] at hroad
      simp at hroad
    | some rdb =>
      rw [hr] at hroad
      simp only [Bool.and_eq_true, Bool.not_eq_true', decide_eq_true_eq] at hroad
      exact Or.inr ⟨hroad.1, rdb, rfl, hroad.2⟩

/-- Successive cells of a legal chain are related by stepRel. -/
theorem chain_consecutive (g : SGrid) (p : List Pos) (hc : ValidChain g p)
    (i : Nat) (a b : Pos) (ha : p[i]? = some a) (hb : p[i + 1]? = some b) :
    stepRel g a b := by
  have hlen : i + 1 < p.length := (List.getElem?_eq_some_iff.mp hb).1
  have hlen2 : i < p.length := by omega
  have hchain := List.chain'_iff_get.mp hc i (by omega)
  rw [List.get_eq_getElem, List.get_eq_getElem] at hchain
  have ha2 : p[i]? = some (p[i]) := List.getElem?_eq_getElem hlen2
  have hb2 : p[i + 1]? = some (p[i + 1]) := List.getElem?_eq_getElem hlen
  rw [ha2] at ha
  rw [hb2] at hb
  have haa : p[i] = a := Option.some.inj ha
  have hbb : p[i + 1] = b := Option.some.inj hb
  rw [← haa, ← hbb]
  exact hchain

/-- The demonstration grid for the router: a one-row strip of Right roads
from x = 0 to x = 3 with the destination at (4, 0). -/
def stripGrid : SGrid where
  width := 5
  height := 1
  road := fun p => if p.2 = 0 ∧ 0 ≤ p.1 ∧ p.1 ≤ 3 then some Dir.Right else none
  obstacle := fun _ => false
  destMark := fun p => p = ((4 : Int), (0 : Int))
  light := fun _ => none
  carFlags := fun _ => []

/-- C2: whenever the A* search returns a path, its total cost — the sum of
its edge costs evaluated against the grid state at the time of the search —
is at most the cost of every other path through the same legal-move graph
from the start cell to the goal cell. -/
theorem a_star_optimal (g : SGrid) (start goal : Pos) (p : List Pos)
    (hp : a_star_pathfinding g start goal = p) (hne : p ≠ []) :
    ∀ q, ValidChain g q → q.head? = some start → q.getLast? = some goal →
      pathCost g p ≤ pathCost g q := by
  rcases a_star_spec g start goal with h | h
  · rw [hp] at h
    exact absurd h hne
  · rw [hp] at h
    exact h.2.2.2.2

/-- Witness for C2 on the strip grid, comparing the returned path against
the straight-line chain. -/
theorem a_star_optimal_witness :
    pathCost stripGrid (a_star_pathfinding stripGrid (0, 0) (4, 0)) ≤
      pathCost stripGrid [(0, 0), (1, 0), (2, 0), (3, 0), (4, 0)] := by
  have hchain : ValidChain stripGrid [(0, 0), (1, 0), (2, 0), (3, 0), (4, 0)] := by
    refine List.chain'_cons.mpr ⟨⟨Dir.Right, by decide⟩, ?_⟩
    refine List.chain'_cons.mpr ⟨⟨Dir.Right, by decide⟩, ?_⟩
    refine List.chain'_cons.mpr ⟨⟨Dir.Right, by decide⟩, ?_⟩
    refine List.chain'_cons.mpr ⟨⟨Dir.Right, by decide⟩, ?_⟩
    exact List.chain'_singleton _
  exact a_star_optimal stripGrid (0, 0) (4, 0) (a_star_pathfinding stripGrid (0, 0) (4, 0))
    rfl (by decide) [(0, 0), (1, 0), (2, 0), (3, 0), (4, 0)] hchain (by decide) (by decide)

/-- C9: the A* search always terminates within its iteration budget: with
the fuel exhausted it returns the empty path, with an empty open set it
returns the empty path, and the full search either reports no path (empty
list) or returns a path reaching the goal. -/
theorem a_star_terminates (g : SGrid) (start goal : Pos) :
    (∀ opn visited gs ctr, aStarLoop g goal 0 opn visited gs ctr = []) ∧
    (∀ fuel visited gs ctr, aStarLoop g goal fuel [] visited gs ctr = []) ∧
    (a_star_pathfinding g start goal = [] ∨
      (a_star_pathfinding g start goal).getLast? = some goal) := by
  refine ⟨fun _ _ _ _ => rfl, ?_, ?_⟩
  · intro fuel visited gs ctr
    cases fuel with
    | zero => rfl
    | succ fuel => rfl
  · rcases a_star_spec g start goal with h | h
    · exact Or.inl h
    · exact Or.inr h.2.2.1

/-- C10: a returned path begins with the start cell (the car's current
cell), contains no repeated cells, and each consecutive pair of cells is
orthogonally adjacent. -/
theorem a_star_path_shape (g : SGrid) (start goal : Pos) (p : List Pos)
    (hp : a_star_pathfinding g start goal = p) (hne : p ≠ []) :
    p.head? = some start ∧ p.Nodup ∧
    ∀ i a b, p[i]? = some a → p[i + 1]? = some b →
      (b.1 - a.1).natAbs + (b.2 - a.2).natAbs = 1 := by
  rcases a_star_spec g start goal with h | h
  · rw [hp] at h
    exact absurd h hne
  · rw [hp] at h
    refine ⟨h.2.1, h.2.2.2.1, ?_⟩
    intro i a b ha hb
    obtain ⟨d, hd⟩ := chain_consecutive g p h.1 i a b ha hb
    have hba := (neighbors_mem g a b d hd).1
    rw [hba]
    exact applyDir_adjacent a d

/-- Witness for C10 on the strip grid. -/
theorem a_star_path_shape_witness :
    ([(0, 0), (1, 0), (2, 0), (3, 0), (4, 0)] : List Pos).head? =
        some ((0 : Int), (0 : Int)) ∧
      ([(0, 0), (1, 0), (2, 0), (3, 0), (4, 0)] : List Pos).Nodup ∧
      ∀ i a b, ([(0, 0), (1, 0), (2, 0), (3, 0), (4, 0)] : List Pos)[i]? = some a →
        ([(0, 0), (1, 0), (2, 0), (3, 0), (4, 0)] : List Pos)[i + 1]? = some b →
        (b.1 - a.1).natAbs + (b.2 - a.2).natAbs = 1 :=
  a_star_path_shape stripGrid (0, 0) (4, 0) [(0, 0), (1, 0), (2, 0), (3, 0), (4, 0)]
    (by decide) (by decide)

/-- C4: in a returned path, every travelled edge (a, b) moves one cell in a
direction d allowed by a's road, with b in bounds, without an obstacle,
and b is either the goal cell or carries a road direction compatible with
d; moreover d is never the reverse of a's road direction.  The two grid
hypotheses are the loader invariants that destination cells carry no
obstacle and no road. -/
theorem a_star_path_admissible (g : SGrid) (start goal : Pos) (p : List Pos)
    (hp : a_star_pathfinding g start goal = p) (hne : p ≠ [])
    (hg1 : ∀ c, g.destMark c = true → g.obstacle c = false)
    (hg2 : ∀ c, g.destMark c = true → g.road c = none) :
    ∀ i a b, p[i]? = some a → p[i + 1]? = some b →
      ∃ d, b = applyDir a d ∧ inBounds g b = true ∧ g.obstacle b = false ∧
        (b = goal ∨ ∃ rdb, g.road b = some rdb ∧ rdb ∈ allowedFrom d) ∧
        (∀ rd, g.road a = some rd → d ≠ reverseDir rd) := by
  rcases a_star_spec g start goal with h | h
  · rw [hp] at h
    exact absurd h hne
  · rw [hp] at h
    intro i a b ha hb
    obtain ⟨d, hd⟩ := chain_consecutive g p h.1 i a b ha hb
    obtain ⟨hba, ⟨rda, hrda, hallow⟩, hok⟩ := neighbors_mem g a b d hd
    obtain ⟨hbounds, hrest⟩ := neighborOk_elim g d b hok
    have hobs : g.obstacle b = false := by
      rcases hrest with hdest | ⟨ho, _⟩
      · exact hg1 b hdest
      · exact ho
    refine ⟨d, hba, hbounds, hobs, ?_, ?_⟩
    · rcases hrest with hdest | ⟨_, rdb, hrdb, hcomp⟩
      · left
        by_cases hnext : i + 1 + 1 < p.length
        · exfalso
          obtain ⟨c, hcget⟩ : ∃ c, p[i + 1 + 1]? = some c :=
            ⟨p[i + 1 + 1], List.getElem?_eq_getElem hnext⟩
          obtain ⟨d2, hd2⟩ := chain_consecutive g p h.1 (i + 1) b c hb hcget
          obtain ⟨-, ⟨rd2, hrd2, -⟩, -⟩ := neighbors_mem g b c d2 hd2
          rw [hg2 b hdest] at hrd2
          exact absurd hrd2 (by simp)
        · have hlen : i + 1 < p.length := (List.getElem?_eq_some_iff.mp hb).1
          have hieq : i + 1 = p.length - 1 := by omega
          have hgl : p[p.length - 1]? = some goal := by
            rw [← List.getLast?_eq_getElem?]
            exact h.2.2.1
          rw [← hieq] at hgl
          rw [hb] at hgl
          exact (Option.some.inj hgl)
      · exact Or.inr ⟨rdb, hrdb, hcomp⟩
    · intro rd hrd
      rw [hrda] at hrd
      have : rda = rd := Option.some.inj hrd
      rw [← this]
      exact allowedFrom_not_reverse rda d hallow

/-- Witness for C4 on the strip grid, at the first travelled edge. -/
theorem a_star_path_admissible_witness :
    ∃ d, (((1 : Int), (0 : Int)) : Pos) = applyDir ((0 : Int), (0 : Int)) d ∧
      inBounds stripGrid (1, 0) = true ∧ stripGrid.obstacle (1, 0) = false ∧
      ((((1 : Int), (0 : Int)) : Pos) = ((4 : Int), (0 : Int)) ∨
        ∃ rdb, stripGrid.road (1, 0) = some rdb ∧ rdb ∈ allowedFrom d) ∧
      (∀ rd, stripGrid.road (0, 0) = some rd → d ≠ reverseDir rd) :=
  a_star_path_admissible stripGrid (0, 0) (4, 0)
    [(0, 0), (1, 0), (2, 0), (3, 0), (4, 0)] (by decide) (by decide)
    (fun c _ => rfl)
    (fun c hc => by
      have hc2 : c = ((4 : Int), (0 : Int)) := by simpa [stripGrid] using hc
      subst hc2
      decide)
    0 (0, 0) (1, 0) (by decide) (by decide)

end Traffic
